import Mathlib

/-!
# TiledArray: permutations, tile ranges, expression leaves and the distributed array

A shallow embedding of `src/TiledArray/permutation.h`, `src/range.h`,
`src/TiledArray/annotated_tensor.h`, `src/TiledArray/array.h` and the blocking
of `examples/ta_dgemm/dgemm.cpp`, with the sparse shapes that
`tests/sparse_shape.cpp` exercises, followed by the properties proved about
it. Definitions come first, theorems after them.

* `boost::array<T, N>` is a list of exactly `N` elements (`BArray`).
* `std::size_t` and `unsigned int` values are natural numbers. On permutation
  entries the code only compares and counts up to one; the products formed by
  `detail::Permute` are taken without wrap-around; `index - 1` in
  `Range::tile_high` wraps as 32-bit unsigned arithmetic does.
* A throwing `TA_ASSERT`, a failing `assert`, an access that C++ leaves
  undefined and a loop that does not end are the `error` case of
  `Except String`; the message of a `TA_ASSERT` is the one in the source.
* Storage that C++ leaves uninitialised (`boost::array<T,DIM> result;`) is an
  explicit argument, so that every statement about a result holds whatever the
  storage held before.
* Boundaries stored in a `std::vector<unsigned int>` are reduced modulo
  `2^32`.
* A future is the value it resolves to, or `none` while it is not set. A task
  is the member function and its arguments; an active message is the handler
  and its arguments, and handling it is a call of the handler on the array
  object of the receiving process.
-/

namespace TiledArray

/-- Model of `boost::array<T, N>`: exactly `N` elements, in order. -/
structure BArray (α : Type) (N : Nat) where
  elems : List α
  size_eq : elems.length = N
deriving DecidableEq, Repr

namespace BArray

variable {α : Type} {N : Nat}

/-- Element access `a[i]` within bounds. -/
def get (a : BArray α N) (i : Fin N) : α :=
  a.elems.get ⟨i.1, by rw [a.size_eq]; exact i.2⟩

/-- The array of `N` copies of one value: `boost::array::assign(v)`. -/
def assign (N : Nat) (v : α) : BArray α N :=
  ⟨List.replicate N v, List.length_replicate N v⟩

end BArray

/-- Modelled from the spec: the macro `TA_ASSERT(cond, exception, message)`
of `TiledArray/error.h` is not among the sources; following the spec
("precondition violation (fatal)") a false condition raises the exception
carrying `message`, a true one continues. -/
def TA_ASSERT (cond : Bool) (message : String) : Except String Unit :=
  if cond then .ok () else .error message

namespace detail

/-- The loop of `detail::permute(first_p, last_p, first_o, first_r)`:
`for(; first_p != last_p; ++first_p) *(first_r + *first_p) = *first_o++;`
The third argument is the content of the result range before the call.
A store at an offset beyond the result range (undefined in C++) stores
nothing; reading past the end of the original stops the loop. -/
def permute {α : Type} : List Nat → List α → List α → List α
  | [], _, r => r
  | _ :: _, [], r => r
  | pi :: ps, o :: os, r => permute ps os (r.set pi o)

theorem permute_length {α : Type} (p : List Nat) (o r : List α) :
    (permute p o r).length = r.length := by
  induction p generalizing o r with
  | nil => simp [permute]
  | cons pi ps ih =>
    cases o with
    | nil => simp [permute]
    | cons x xs => simp [permute, ih]

end detail

/-- The class `Permutation<DIM>`: its only data member is `Array p_`. -/
structure Permutation (DIM : Nat) where
  p_ : BArray Nat DIM
deriving DecidableEq, Repr

namespace Permutation

variable {DIM : Nat}

/-- The loop of `valid_`, with `count` the counter array. -/
def valid_loop (DIM : Nat) : List Nat → List Nat → Bool
  | [], _ => true
  | i :: rest, count =>
    if i ≥ DIM then false
    else if count.getD i 0 > 0 then false
    else valid_loop DIM rest (count.set i (count.getD i 0 + 1))

/-- `Permutation::valid_(first, last)`: `count.assign(0)` and the loop. -/
def valid_ (DIM : Nat) (l : List Nat) : Bool :=
  valid_loop DIM l (BArray.assign DIM 0).elems

/-- `Permutation(const Array& source)`. -/
def fromArray (source : BArray Nat DIM) : Except String (Permutation DIM) := do
  let p_ := source
  TA_ASSERT (valid_ DIM p_.elems) "Invalid permutation supplied."
  pure ⟨p_⟩

/-- `operator[](unsigned int i)` for an index within bounds. -/
def get (p : Permutation DIM) (i : Fin DIM) : Nat := p.p_.get i

/-- A permutation object is valid when its data passes `valid_`, as every
object built by a checking constructor does. -/
def Valid (p : Permutation DIM) : Prop := valid_ DIM p.p_.elems = true

instance (p : Permutation DIM) : Decidable p.Valid := by
  unfold Valid; infer_instance

end Permutation

/-- `operator^(const Permutation<DIM>& perm, const boost::array<T,DIM>& orig)`:
`result` is declared without an initialiser, then filled by `detail::permute`. -/
def xor_array {α : Type} {DIM : Nat} (perm : Permutation DIM)
    (orig : BArray α DIM) (uninit : BArray α DIM) : BArray α DIM :=
  ⟨detail.permute perm.p_.elems orig.elems uninit.elems, by
    rw [detail.permute_length]; exact uninit.size_eq⟩

namespace detail

/-- Modelled from the spec: `detail::initialize_from_values` of
`TiledArray/array_util.h` is not among the sources; it copies the `DIM` values
the iterator `first` delivers into the array (for `DIM == 1` and an integral
argument, the single value itself). -/
def initialize_from_values (DIM : Nat) (first : List Nat) (h : DIM ≤ first.length) :
    BArray Nat DIM :=
  ⟨first.take DIM, by rw [List.length_take]; omega⟩

/-- Modelled from the spec: `detail::fill(p_.begin(), params...)` of
`TiledArray/utility.h` is not among the sources; it stores the parameter pack
in order. `BOOST_STATIC_ASSERT(Count<Params...>::value == DIM)` is the length
carried by the argument's type. -/
def fill {DIM : Nat} (params : BArray Nat DIM) : BArray Nat DIM := params

end detail

namespace Permutation

variable {DIM : Nat}

/-- `template <typename InIter> Permutation(InIter first)`. -/
def fromIter (first : List Nat) (h : DIM ≤ first.length) :
    Except String (Permutation DIM) := do
  let p_ := detail.initialize_from_values DIM first h
  TA_ASSERT (valid_ DIM p_.elems) "Invalid permutation supplied."
  pure ⟨p_⟩

/-- `template <typename... Params> Permutation(Params... params)`, the form
compiled under `__GXX_EXPERIMENTAL_CXX0X__`. Its body is the two static
assertions and the call of `detail::fill`. -/
def fromPack (params : BArray Nat DIM) : Except String (Permutation DIM) :=
  pure ⟨detail.fill params⟩

/-- `Permutation(const index_type p0, ...)`, the `va_list` form: `p0` and
`DIM - 1` further arguments. -/
def fromVaList (p0 : Nat) (rest : List Nat) (h : rest.length + 1 = DIM) :
    Except String (Permutation DIM) := do
  let p_ : BArray Nat DIM := ⟨p0 :: rest, by simpa using h⟩
  TA_ASSERT (valid_ DIM p_.elems) "Invalid permutation supplied."
  pure ⟨p_⟩

/-- `make_unit_permutation<DIM>()`: `_result[d] = d`, then the iterator
constructor on the C array. -/
def make_unit_permutation (DIM : Nat) : Except String (Permutation DIM) :=
  fromIter (List.range DIM) (by simp)

/-- `Permutation::unit()`: the static `unit_permutation`, initialised by
`make_unit_permutation<DIM>()`. -/
def unit (DIM : Nat) : Except String (Permutation DIM) := make_unit_permutation DIM

end Permutation

/-- `operator^(const Permutation<DIM>& perm, const Permutation<DIM>& p)`:
`Permutation<DIM> result(perm ^ p.data());` through the checking array
constructor. -/
def xor_perm {DIM : Nat} (perm p : Permutation DIM) (uninit : BArray Nat DIM) :
    Except String (Permutation DIM) :=
  Permutation.fromArray (xor_array perm p.p_ uninit)

/-- `Permutation::operator-()`: `return *this ^ unit();`. -/
def Permutation.neg {DIM : Nat} (p : Permutation DIM) (uninit : BArray Nat DIM) :
    Except String (Permutation DIM) := do
  let u ← Permutation.unit DIM
  xor_perm p u uninit

deriving instance DecidableEq for Except

/-- Example: the cyclic permutation `Permutation<3>(1, 2, 0)`. -/
def ex_cycle : Permutation 3 := ⟨⟨[1, 2, 0], rfl⟩⟩

/-- Example: a three-element array. -/
def ex_data : BArray Nat 3 := ⟨[10, 20, 30], rfl⟩

/-- Example: arbitrary prior content of a three-element result. -/
def ex_junk : BArray Nat 3 := ⟨[7, 7, 7], rfl⟩

/-- Example: the identity `Permutation<3>(0, 1, 2)`. -/
def ex_id : Permutation 3 := ⟨⟨[0, 1, 2], rfl⟩⟩

/-- Example: the transposition `Permutation<3>(1, 0, 2)`. -/
def ex_swap : Permutation 3 := ⟨⟨[1, 0, 2], rfl⟩⟩

/-- Modelled from the spec: the enumeration `DimensionOrderType` of
`TiledArray/coordinate_system.h` is not among the sources. The spec's
"weights are the running products either row-major or column-major":
`decreasing_dimension_order` is row-major (the last dimension is the least
significant), `increasing_dimension_order` is column-major (the first dimension
is the least significant). -/
inductive DimensionOrderType where
  | decreasing_dimension_order
  | increasing_dimension_order
deriving DecidableEq, Repr

/-- Running products: `w, w * c₀, w * c₀ * c₁, ...`, one entry for each `cₖ`. -/
def running_products : Nat → List Nat → List Nat
  | _, [] => []
  | w, c :: cs => w :: running_products (w * c) cs

theorem running_products_length (w : Nat) (l : List Nat) :
    (running_products w l).length = l.length := by
  induction l generalizing w with
  | nil => rfl
  | cons c cs ih => simp [running_products, ih]

/-- Modelled from the spec: `CS::calc_weight(size)` of
`TiledArray/coordinate_system.h` is not among the sources. Following the spec
("weights are the running products either row-major or column-major"), the
weight of a dimension is the product of the extents of all less significant
dimensions. This is the function on the entries. -/
def calc_weight_list (order : DimensionOrderType) (size : List Nat) : List Nat :=
  match order with
  | .increasing_dimension_order => running_products 1 size
  | .decreasing_dimension_order => (running_products 1 size.reverse).reverse

theorem calc_weight_list_length (order : DimensionOrderType) (size : List Nat) :
    (calc_weight_list order size).length = size.length := by
  cases order <;> simp [calc_weight_list, running_products_length]

/-- Modelled from the spec: `CS::calc_weight(size)` on arrays, see
`calc_weight_list`. -/
def calc_weight {DIM : Nat} (order : DimensionOrderType) (size : BArray Nat DIM) :
    BArray Nat DIM :=
  ⟨calc_weight_list order size.elems, by rw [calc_weight_list_length, size.size_eq]⟩

/-- Modelled from the spec: the class template `Range<CS>` (the range of an
n-dimensional object, forward-declared in `permutation.h`) is not among the
sources. `Permute` uses its `size()`, the extent of each dimension, and its
`volume()`, the number of elements, which is the product of the extents. -/
structure NRange (DIM : Nat) where
  size : BArray Nat DIM
deriving DecidableEq, Repr

/-- Modelled from the spec: `Range<CS>::volume()`, the product of the
extents. -/
def NRange.volume {DIM : Nat} (r : NRange DIM) : Nat := r.size.elems.prod

/-- Modelled from the spec: the ordinal of a multi-index in a layout with the
given extents, the sum of the index entries times the weights of their
dimensions ("ordinal / multi-index correspondence"). This is the function on
the entries. -/
def ordinal_list (order : DimensionOrderType) (size idx : List Nat) : Nat :=
  (List.zipWith (· * ·) idx (calc_weight_list order size)).sum

/-- Modelled from the spec: the ordinal of a multi-index, see `ordinal_list`. -/
def ordinal {DIM : Nat} (order : DimensionOrderType) (size idx : BArray Nat DIM) : Nat :=
  ordinal_list order size.elems idx.elems

namespace detail

/-- The memory a run of the loop nest works on: what is left of the input
range `[current_, last_)` of the `AssignmentOp` object, the output data, and a
record of the offsets stored to so far. The record is not part of the C++
object; it is kept to state how often a position is written. -/
structure PermuteState (T : Type) where
  current_ : List T
  out : List T
  stores : List Nat
deriving DecidableEq, Repr

/-- `AssignmentOp::operator()(it)`, with `it` the offset from `first_out`:
the assertion `current_ != last_`, then `*it = *current_++`. A store outside
the output range is undefined in C++ and an error here. -/
def AssignmentOp {T : Type} (it : Nat) (st : PermuteState T) : Except String (PermuteState T) :=
  match st.current_ with
  | [] => .error "The iterator is the end of the range."
  | x :: rest =>
    if it < st.out.length then .ok ⟨rest, st.out.set it x, st.stores ++ [it]⟩
    else .error "undefined: store outside the output range"

/-- The loop of `ForLoop::operator()`: `for(; first < end; first += step_)
func_(first);`. The first argument bounds the number of iterations; a loop
that has not ended after that many does not end at all (see `ForLoop`). -/
def ForLoop.iterate {σ : Type} (func : Nat → σ → Except String σ) (end_ step_ : Nat) :
    Nat → Nat → σ → Except String σ
  | 0, first, st =>
    if first < end_ then .error "diverges: the loop does not terminate" else .ok st
  | fuel + 1, first, st =>
    if first < end_ then do
      let st ← func first st
      ForLoop.iterate func end_ step_ fuel (first + step_) st
    else .ok st

/-- `ForLoop<F, RandIter>(f, n, s)::operator()(first)`: `end = first + n_`, then
the loop. With a step of at least one the loop makes at most `n_` iterations,
so `n_` bounds them; with a step of zero and `n_ > 0` the C++ loop never ends,
which is the error case. -/
def ForLoop {σ : Type} (func : Nat → σ → Except String σ) (n_ step_ : Nat) (first : Nat)
    (st : σ) : Except String σ :=
  ForLoop.iterate func (first + n_) step_ n_ first st

/-- `NestedForLoop<DIM, F, RandIter>(func, e_first, e_last, s_first, s_last)`
and its `operator()`: the function object is wrapped into one `ForLoop` for
each dimension, the first bound and step making the innermost loop. -/
def NestedForLoop {σ : Type} :
    Nat → (Nat → σ → Except String σ) → List Nat → List Nat → Nat → σ → Except String σ
  | 0, func, _, _ => func
  | d + 1, func, e :: es, s :: ss => NestedForLoop d (ForLoop func e s) es ss
  | _ + 1, _, _, _ => fun _ _ => .error "undefined: read past the end of the loop bounds"

end detail

/-- `detail::Permute<CS>::operator()(p, first_out, last_out, first_in, last_in)`
for a `Permute` object built on `range_`. `out` is the content of
`[first_out, last_out)` before the call and `inp` that of `[first_in, last_in)`;
`u_size`, `u_step` and `u_ip` are the prior contents of `p_size`, `step` and of
the result of `-p`. In the branch for the increasing order the source also
overwrites `p_size.front()`, which is not read afterwards. -/
def detail.Permute {T : Type} {DIM : Nat} (order : DimensionOrderType) (range_ : NRange DIM)
    (p : Permutation DIM) (out inp : List T) (u_size u_step u_ip : BArray Nat DIM) :
    Except String (detail.PermuteState T) := do
  TA_ASSERT (out.length == range_.volume)
    "The distance between first_out and last_out must be equal to the volume of the original container."
  TA_ASSERT (inp.length == range_.volume)
    "The distance between first and last must be equal to the volume of the original container."
  let p_size := xor_array p range_.size u_size
  let weight := calc_weight order p_size
  let ip ← p.neg u_ip
  let step := xor_array ip weight u_step
  let end_ := List.zipWith (· * ·) range_.size.elems step.elems
  match order with
  | .decreasing_dimension_order =>
    detail.NestedForLoop DIM detail.AssignmentOp end_.reverse step.elems.reverse 0 ⟨inp, out, []⟩
  | .increasing_dimension_order =>
    detail.NestedForLoop DIM detail.AssignmentOp end_ step.elems 0 ⟨inp, out, []⟩

/-- Example: the extents of a 2 x 3 object. -/
def ex_extents : NRange 2 := ⟨⟨[2, 3], rfl⟩⟩

/-- Example: the transposition `Permutation<2>(1, 0)`. -/
def ex_transpose : Permutation 2 := ⟨⟨[1, 0], rfl⟩⟩

namespace detail

/-- Auxiliary: the number of calls a loop nest with the given iteration counts
makes to its innermost function object, starting from `G` calls per run of the
part already built. -/
def loop_count : List Nat → Nat → Nat
  | [], G => G
  | c :: cs, G => loop_count cs (c * G)

/-- Auxiliary: the offset at which a loop nest with the given iteration counts
and steps makes its `t`-th call, built up from the innermost loop outwards as
the nest itself is. -/
def loop_offset : List Nat → List Nat → Nat → (Nat → Nat) → Nat → Nat
  | c :: cs, s :: ss, G, φ => loop_offset cs ss (c * G) (fun t => (t / G) * s + φ (t % G))
  | _, _, _, φ => φ

/-- Auxiliary: the number with mixed-radix digits `js` (least significant
first) for the radices `cs`. -/
def horner : List Nat → List Nat → Nat
  | c :: cs, j :: js => j + c * horner cs js
  | _, _ => 0

/-- Auxiliary: the mixed-radix digits of `t` (least significant first) for the
radices `cs`. -/
def digits : List Nat → Nat → List Nat
  | [], _ => []
  | c :: cs, t => (t % c) :: digits cs (t / c)

end detail

namespace detail

/-- Auxiliary: a list read from its least significant dimension on. -/
def orient (order : DimensionOrderType) (l : List Nat) : List Nat :=
  match order with
  | .increasing_dimension_order => l
  | .decreasing_dimension_order => l.reverse

/-- Auxiliary: the iteration counts the loops of a nest really make: a loop
with step zero has bound zero and makes no iteration. -/
def eff_counts (cs ss : List Nat) : List Nat :=
  List.zipWith (fun c s => if s = 0 then 0 else c) cs ss

end detail

end TiledArray

/-- The standard `assert(expr)`: a false condition aborts the program, which is
the `error` case here. -/
def c_assert (cond : Bool) (expr : String) : Except String Unit :=
  if cond then .ok () else .error ("Assertion failed: " ++ expr)

/-- The class `Range` of `src/range.h`: tile boundaries of one dimension. Its
only data member is `std::vector<unsigned int> m_ranges`. -/
structure Range where
  m_ranges : List Nat
deriving DecidableEq, Repr

namespace Range

/-- The loop of `valid()`: `it` runs from `begin() + 1` to `end()` and the
function returns false at the first `*it <= *(it - 1)`. The first argument is
`*(it - 1)`, the second the entries from `it` on. -/
def valid_loop : Nat → List Nat → Bool
  | _, [] => true
  | previous, x :: rest => if x ≤ previous then false else valid_loop x rest

/-- `Range::valid()`. -/
def valid (r : Range) : Bool :=
  if r.m_ranges.length < 2 then false
  else
    match r.m_ranges with
    | [] => true
    | b0 :: rest => valid_loop b0 rest

/-- `Range(std::vector<unsigned int> ranges)`. -/
def fromVector (ranges : List Nat) : Except String Range := do
  let r : Range := ⟨ranges⟩
  c_assert r.valid "this->valid()"
  pure r

/-- `Range(unsigned int* ranges, size_t tiles)`: the `tiles + 1` elements at
`ranges` are copied. -/
def fromPointer (ranges : List Nat) (tiles : Nat) (_h : tiles + 1 ≤ ranges.length) :
    Except String Range := do
  let r : Range := ⟨ranges.take (tiles + 1)⟩
  c_assert r.valid "this->valid()"
  pure r

/-- The expression `this->m_ranges.size() - 1` in `size_t` arithmetic: it wraps
to `2^64 - 1` for an empty vector. -/
def size_minus_one (r : Range) : Nat :=
  if r.m_ranges.length = 0 then 2 ^ 64 - 1 else r.m_ranges.length - 1

/-- The element read `this->m_ranges[i]`; a read outside the vector is undefined
in C++ and an error here. -/
def at_ (r : Range) (i : Nat) : Except String Nat :=
  match r.m_ranges[i]? with
  | some v => .ok v
  | none => .error "undefined: read outside m_ranges"

/-- `Range::tile_count()`. -/
def tile_count (r : Range) : Nat := r.size_minus_one

/-- `Range::get_tile(index)`. -/
def get_tile (r : Range) (index : Nat) : Except String (Nat × Nat) := do
  c_assert (decide (index < r.size_minus_one)) "index < this->m_ranges.size() - 1"
  let first ← r.at_ index
  let second ← r.at_ (index + 1)
  pure (first, second)

/-- `Range::low()`. -/
def low (r : Range) : Except String Nat := r.at_ 0

/-- `Range::high()`. -/
def high (r : Range) : Except String Nat := r.at_ r.size_minus_one

/-- `Range::tile_low(index)`. -/
def tile_low (r : Range) (index : Nat) : Except String Nat := do
  c_assert (decide (index < r.size_minus_one)) "index < this->m_ranges.size() - 1"
  r.at_ index

/-- The expression `index - 1` for `const unsigned int index`: 32-bit unsigned
arithmetic, which wraps to `2^32 - 1` for index zero. -/
def index_minus_one (index : Nat) : Nat := (index + 2 ^ 32 - 1) % 2 ^ 32

/-- `Range::tile_high(index)`: the assertion, then
`return this->m_ranges[index - 1];`. -/
def tile_high (r : Range) (index : Nat) : Except String Nat := do
  c_assert (decide (index < r.size_minus_one)) "index < this->m_ranges.size() - 1"
  r.at_ (index_minus_one index)

/-- The difference `b - a` of two `unsigned int` values: 32-bit unsigned
arithmetic, which wraps around when `a` exceeds `b`. -/
def sub_u32 (b a : Nat) : Nat := (b + 2 ^ 32 - a) % 2 ^ 32

/-- `Range::tile_size(index)`: the assertion, then
`return (this->m_ranges[index + 1] - this->m_ranges[index]);`. -/
def tile_size (r : Range) (index : Nat) : Except String Nat := do
  c_assert (decide (index < r.size_minus_one)) "index < this->m_ranges.size() - 1"
  let upper ← r.at_ (index + 1)
  let lower ← r.at_ index
  pure (sub_u32 upper lower)

/-- `Range::size()`: `return (this->high() - this->low());`. -/
def size (r : Range) : Except String Nat := do
  let upper ← r.high
  let lower ← r.low
  pure (sub_u32 upper lower)

end Range

/-- The class `Range::RangeIterator`. Its base class template `Iterator` is not
among the sources; what the code here uses of it is the member `m_current`
(of type `int`) that the base constructor stores. `m_coll` is the range
iterated over. -/
structure RangeIterator where
  m_coll : Range
  m_current : Int
deriving DecidableEq, Repr

namespace RangeIterator

/-- `RangeIterator::advance(int n = 1)`: the body is empty. -/
def advance (it : RangeIterator) (_n : Int) : RangeIterator := it

/-- Prefix `operator++()`: `this->advance(); return *this;`. -/
def pre_increment (it : RangeIterator) : RangeIterator := it.advance 1

/-- Postfix `operator++(int)`: the assertion, a copy, `this->advance()`; the
result is the copy and the iterator after the call. -/
def post_increment (it : RangeIterator) : Except String (RangeIterator × RangeIterator) := do
  c_assert (decide (it.m_current ≠ -1)) "this->m_current != -1"
  let tmp := it
  pure (tmp, it.advance 1)

/-- `operator==`. -/
def eq (it other : RangeIterator) : Bool := it.m_current == other.m_current

/-- `operator!=`. -/
def ne (it other : RangeIterator) : Bool := !(it.eq other)

/-- `operator*()`: the assertion, then `m_coll.get_tile(m_current)`, the `int`
position converted to `unsigned int`. -/
def deref (it : RangeIterator) : Except String (Nat × Nat) := do
  c_assert (decide (it.m_current ≠ -1)) "this->m_current != -1"
  it.m_coll.get_tile (it.m_current % 2 ^ 32).toNat

end RangeIterator

/-- `Range::begin()`: `iterator(*this)`, the position defaulting to zero. -/
def Range.begin (r : Range) : RangeIterator := ⟨r, 0⟩

/-- `Range::end()`: `iterator(*this, -1)`. -/
def Range.end_ (r : Range) : RangeIterator := ⟨r, -1⟩

/-- Example: the boundaries `{0, 3, 7, 12}` of three tiles. -/
def ex_bounds : List Nat := [0, 3, 7, 12]

namespace TiledArray

/-- The list-level content of validity for an array of `DIM` entries. -/
def IsPermList (DIM : Nat) (l : List Nat) : Prop :=
  l.length = DIM ∧ (∀ x ∈ l, x < DIM) ∧ l.Nodup

/-- The identity array `0, 1, ..., DIM - 1`. -/
def Permutation.iota (DIM : Nat) : BArray Nat DIM := ⟨List.range DIM, List.length_range DIM⟩

/-- What a function object built by the loop nest does, in terms of the
innermost `body`: one run makes `G` calls, the `t`-th at offset `φ t` from the
run's starting point. -/
def detail.NestInv {σ : Type} (body func : Nat → σ → Except String σ) (G : Nat) (φ : Nat → Nat) :
    Prop :=
  ∀ first st, func first st
    = (List.range G).foldlM (fun st t => body (first + φ t) st) st

end TiledArray

namespace TiledArray

namespace expressions

/-- Modelled from the spec: the class template `Tensor` of `TiledArray/tensor.h`
is not among the sources. Following the spec ("a dense rectangular block
holding numeric elements", "a tile carries its element range"), a tile is its
range and its elements in storage order. The tile type of the wrapped array
and the tile type of the expression are both this type; a conversion between
them copies range and elements. -/
structure Tensor (S : Type) where
  range : List Nat
  data : List S
deriving DecidableEq, Repr

/-- The two overloads of `AnnotatedTensorImpl::is_one` are chosen by the scalar
type (`std::is_integral`, `std::is_floating_point`); a scalar type comes with
the overload that applies to it. -/
class IsOne (S : Type) where
  is_one : S → Bool

/-- The integral overload: `return t == std::integral_constant<T, 1>::value;`. -/
instance : IsOne Int where
  is_one t := t == 1

/-- Modelled from the spec: the interface of the array a leaf wraps
(`is_dense`, `get_shape`, `size`, `find`; the `Array` of `src/TiledArray/array.h`
is an earlier one without them). Following the spec, the shape is dense or a
bit vector over the tiles in which a zero bit declares the tile structurally
zero, and `find(i)` is a future of tile `i`, which is identified here with the
tile it resolves to. -/
structure LeafArray (S : Type) where
  is_dense : Bool
  get_shape : List Bool
  size : Nat
  find : Nat → Tensor S

/-- Modelled from the spec: `Array::is_zero(i)`: never for a dense array,
otherwise exactly when bit `i` of the shape is zero. -/
def LeafArray.is_zero {S : Type} (a : LeafArray S) (i : Nat) : Bool :=
  if a.is_dense then false else !(a.get_shape.getD i false)

namespace detail

/-- The member functions of `AnnotatedTensorImpl` that are run as tasks. -/
inductive TaskFn where
  | convert_and_set_tile
  | scale_and_set_tile
  | convert_scale_and_set_tile
deriving DecidableEq, Repr

/-- Modelled from the spec: an entry of the task queue, made by
`get_world().taskq.add(this, &fn, i, value)`: the member function and its
arguments, the future `value` being the tile it resolves to. -/
structure Task (S : Type) where
  fn : TaskFn
  i : Nat
  value : Tensor S
deriving DecidableEq, Repr

/-- Modelled from the spec: what `eval_tiles` and its tasks change: the tiles
stored by `TensorExpressionImpl_::set(i, value)`, in the order of the calls,
and the task queue of the world. -/
structure TensorState (S : Type) where
  storage : List (Nat × Tensor S)
  taskq : List (Task S)
deriving DecidableEq, Repr

/-- The class `AnnotatedTensorImpl<A>`: the wrapped `array_`, and from the base
class `TensorExpressionImpl` (not among the sources) the prefactor `scale()` and
the ordinals `pmap()->begin()` to `pmap()->end()` owned by this process.
`same_value_type` is `std::is_same<typename A::value_type, value_type>`, which
selects the overloads of `set_tile` and `scale_set_tile`. -/
structure AnnotatedTensorImpl (S : Type) where
  array_ : LeafArray S
  scale : S
  pmap : List Nat
  same_value_type : Bool

namespace AnnotatedTensorImpl

variable {S : Type}

/-- Modelled from the spec: `TensorExpressionImpl_::set(i, value)` stores
`value` as tile `i` of the node. -/
def set (i : Nat) (value : Tensor S) (st : TensorState S) : TensorState S :=
  ⟨st.storage ++ [(i, value)], st.taskq⟩

/-- Modelled from the spec: `get_world().taskq.add(this, &fn, i, value)`. -/
def taskq_add (fn : TaskFn) (i : Nat) (value : Tensor S) (st : TensorState S) :
    TensorState S :=
  ⟨st.storage, st.taskq ++ [⟨fn, i, value⟩]⟩

/-- The local `tile` of `scale_and_set_tile`: the range of `value` and its
elements, each multiplied from the left by `scale()`
(`std::bind1st(std::multiplies, scale())`). -/
def scaled_tile [Mul S] (self : AnnotatedTensorImpl S) (value : Tensor S) : Tensor S :=
  ⟨value.range, value.data.map (fun x => self.scale * x)⟩

/-- The local `tile` of `convert_scale_and_set_tile`: a converted copy of
`value`, then `tile *= scale()`. -/
def converted_scaled_tile [Mul S] (self : AnnotatedTensorImpl S) (value : Tensor S) :
    Tensor S :=
  let tile : Tensor S := value
  ⟨tile.range, tile.data.map (fun x => x * self.scale)⟩

/-- `convert_and_set_tile(i, value)`: `value_type tile(value);` then
`set(i, madness::move(value));`. -/
def convert_and_set_tile (_self : AnnotatedTensorImpl S) (i : Nat) (value : Tensor S)
    (st : TensorState S) : TensorState S :=
  let _tile : Tensor S := value
  set i value st

/-- `scale_and_set_tile(i, value)`: the scaled `tile` is built, then
`set(i, madness::move(value));`. -/
def scale_and_set_tile [Mul S] (self : AnnotatedTensorImpl S) (i : Nat) (value : Tensor S)
    (st : TensorState S) : TensorState S :=
  let _tile : Tensor S := self.scaled_tile value
  set i value st

/-- `convert_scale_and_set_tile(i, value)`: `value_type tile(value);
tile *= scale();` then `set(i, madness::move(value));`. -/
def convert_scale_and_set_tile [Mul S] (self : AnnotatedTensorImpl S) (i : Nat)
    (value : Tensor S) (st : TensorState S) : TensorState S :=
  let _tile : Tensor S := self.converted_scaled_tile value
  set i value st

/-- `set_tile(i, value)`: with equal tile types the future is stored directly,
otherwise the task `convert_and_set_tile` is spawned. -/
def set_tile (self : AnnotatedTensorImpl S) (i : Nat) (value : Tensor S)
    (st : TensorState S) : TensorState S :=
  if self.same_value_type then set i value st
  else taskq_add .convert_and_set_tile i value st

/-- `scale_set_tile(i, value)`: with equal tile types the task
`scale_and_set_tile` is spawned, otherwise `convert_scale_and_set_tile`. -/
def scale_set_tile (self : AnnotatedTensorImpl S) (i : Nat) (value : Tensor S)
    (st : TensorState S) : TensorState S :=
  if self.same_value_type then taskq_add .scale_and_set_tile i value st
  else taskq_add .convert_scale_and_set_tile i value st

/-- `eval_tiles()`: the four loops over the local ordinals. -/
def eval_tiles [IsOne S] (self : AnnotatedTensorImpl S) (st : TensorState S) :
    TensorState S :=
  if IsOne.is_one self.scale then
    if self.array_.is_dense then
      self.pmap.foldl (fun st it => self.set_tile it (self.array_.find it) st) st
    else
      self.pmap.foldl (fun st it =>
        if !self.array_.is_zero it then self.set_tile it (self.array_.find it) st else st) st
  else
    if self.array_.is_dense then
      self.pmap.foldl (fun st it => self.scale_set_tile it (self.array_.find it) st) st
    else
      self.pmap.foldl (fun st it =>
        if !self.array_.is_zero it then self.scale_set_tile it (self.array_.find it) st
        else st) st

/-- One task of the queue is run: the member function is called on its
arguments. -/
def run_task [Mul S] (self : AnnotatedTensorImpl S) (t : Task S) (st : TensorState S) :
    TensorState S :=
  match t.fn with
  | .convert_and_set_tile => self.convert_and_set_tile t.i t.value st
  | .scale_and_set_tile => self.scale_and_set_tile t.i t.value st
  | .convert_scale_and_set_tile => self.convert_scale_and_set_tile t.i t.value st

/-- Modelled from the spec: the task queue is drained, the tasks running one
after the other in the order they were added (the tasks here spawn no further
task). -/
def run_tasks [Mul S] (self : AnnotatedTensorImpl S) (st : TensorState S) : TensorState S :=
  st.taskq.foldl (fun acc t => self.run_task t acc) ⟨st.storage, []⟩

/-- `make_shape(shape)`: the assertion `shape.size() == array_.size()`, then
`shape = array_.get_shape();`; the result is the new content of `shape`. -/
def make_shape (self : AnnotatedTensorImpl S) (shape : List Bool) :
    Except String (List Bool) := do
  TA_ASSERT (shape.length == self.array_.size) "shape.size() == array_.size()"
  pure self.array_.get_shape

/-- Auxiliary: the local ordinals for which `eval_tiles` calls `set_tile` or
`scale_set_tile`. -/
def emitted (self : AnnotatedTensorImpl S) : List Nat :=
  self.pmap.filter (fun it => self.array_.is_dense || !self.array_.is_zero it)

end AnnotatedTensorImpl

end detail

end expressions

end TiledArray

namespace TiledArray

namespace expressions

/-- Example: a wrapped array of three tiles, tile 1 structurally zero; tile `i`
holds the elements `i + 1, i + 2, i + 3`. -/
def ex_leaf_array : LeafArray Int :=
  ⟨false, [true, false, true], 3, fun i => ⟨[3], [(i : Int) + 1, (i : Int) + 2, (i : Int) + 3]⟩⟩

/-- Example: a leaf on `ex_leaf_array` with prefactor 1 owning all three
ordinals, the tile types being equal. -/
def ex_leaf_one : detail.AnnotatedTensorImpl Int := ⟨ex_leaf_array, 1, [0, 1, 2], true⟩

/-- Example: a leaf on `ex_leaf_array` with prefactor 2 owning all three
ordinals, the tile types being equal. -/
def ex_leaf_two : detail.AnnotatedTensorImpl Int := ⟨ex_leaf_array, 2, [0, 1, 2], true⟩

/-- Example: as `ex_leaf_two`, the tile types being different. -/
def ex_leaf_two_convert : detail.AnnotatedTensorImpl Int :=
  ⟨ex_leaf_array, 2, [0, 1, 2], false⟩

end expressions

end TiledArray

namespace TiledArray

/-- Modelled from the spec: the class template `Tile` of `TiledArray/tile.h` is
not among the sources. A tile is a dense block: `size()` is the extent of each
dimension and `begin()` to `end()` are its elements. -/
structure Tile (T : Type) where
  size : List Nat
  data : List T
deriving DecidableEq, Repr

/-- Modelled from the spec: the class template `expressions::tile::AnnotatedTile`
is not among the sources. It is built from a size, a variable list and the
elements (`atile_type(tile.size(), var, tile.begin(), tile.end(), order)`, the
order being fixed by the coordinate system). -/
structure AnnotatedTile (T : Type) where
  size : List Nat
  vars : List String
  data : List T
deriving DecidableEq, Repr

/-- Modelled from the spec: the default-constructed annotated tile
`atile_type()`, which is empty. -/
def AnnotatedTile.empty {T : Type} : AnnotatedTile T := ⟨[], [], []⟩

/-- Modelled from the spec: `Tile::operator()(const VariableList&)`, the tile
annotated with the variable list. -/
def Tile.annotate {T : Type} (t : Tile T) (v : List String) : AnnotatedTile T :=
  ⟨t.size, v, t.data⟩

/-- Modelled from the spec: what a process sends to the owner of a key when it
inserts or erases a tile it does not own. -/
inductive StoreMessage (V : Type) where
  | insert (k : Nat) (v : V)
  | erase (k : Nat)
deriving DecidableEq, Repr

/-- Modelled from the spec: the class template `DistributedArray` of
`TiledArray/distributed_array.h` is not among the sources. Following the spec
(a mapping from ordinal to tile with per-key ownership given by the process
map; only owners hold a tile): `owner` is the process map, `cont` the tiles
held by this process and `sent` the requests passed on to other owners, as
pairs of destination and request in the order they were made. -/
structure DistributedArray (V : Type) where
  owner : Nat → Nat
  cont : Nat → Option V
  sent : List (Nat × StoreMessage V)

namespace DistributedArray

variable {V : Type}

/-- Modelled from the spec: `insert(k, tile)` on the process with the given
rank: "owner stores; non-owner sends the tile to owner (non-blocking)". -/
def insert (d : DistributedArray V) (rank k : Nat) (v : V) : DistributedArray V :=
  if d.owner k = rank then ⟨d.owner, fun j => if j = k then some v else d.cont j, d.sent⟩
  else ⟨d.owner, d.cont, d.sent ++ [(d.owner k, .insert k v)]⟩

/-- Modelled from the spec: `erase(k)` on the process with the given rank: the
owner releases the tile, a non-owner passes the request on. -/
def erase (d : DistributedArray V) (rank k : Nat) : DistributedArray V :=
  if d.owner k = rank then ⟨d.owner, fun j => if j = k then none else d.cont j, d.sent⟩
  else ⟨d.owner, d.cont, d.sent ++ [(d.owner k, .erase k)]⟩

/-- Modelled from the spec: `find(acc, k)`: the accessor points to the tile held
here at `k`; the call returns false, the accessor staying empty, when the tile
is remote or not found. -/
def find (d : DistributedArray V) (k : Nat) : Option V := d.cont k

end DistributedArray

/-- Modelled from the spec: the active messages of `Array`, sent by
`this->send(dest, &Array_::handler, args...)`: the handler and its arguments.
A remote reference to a future is the number naming it on the requester. -/
inductive ArrayMessage (T : Type) where
  | send_probe (requester i ref : Nat)
  | receive_probe (ref : Nat) (p : Bool)
  | send_atile (requester i ref : Nat) (var : List String)
  | receive_atile (ref i : Nat) (tile : Tile T) (var : List String)
  | receive_no_atile (ref i : Nat)
deriving DecidableEq, Repr

/-- The class `Array<T, DIM, CS>` on one process: `rank` is
`this->world.mpi.rank()`, `tile_size k` is `range_.tile(k).size()` (the tiled
range `range_` is of a class that is not among the sources) and `tiles_` the
tile container. -/
structure Array (T : Type) where
  rank : Nat
  tile_size : Nat → List Nat
  tiles_ : DistributedArray (Tile T)

/-- What a call that returns a future leaves behind: the content of the future
`result` on return (`none` while it is not set) and the messages sent, as pairs
of destination and message. -/
structure Pending (R T : Type) where
  result : Option R
  sent : List (Nat × ArrayMessage T)
deriving DecidableEq, Repr

namespace Array

variable {T : Type}

/-- `insert(const Key& k, const tile_type& t)`: the `TA_ASSERT` on the sizes,
then `tiles_.insert(key_(k), t)`. The result is what the call raises, if
anything, and the array after the call. -/
def insert (a : Array T) (k : Nat) (t : Tile T) : Except String Unit × Array T :=
  match TA_ASSERT (t.size == a.tile_size k)
      "Tile boundaries do not match array tile boundaries." with
  | .error e => (.error e, a)
  | .ok _ => (.ok (), ⟨a.rank, a.tile_size, a.tiles_.insert a.rank k t⟩)

/-- `template<typename Key> erase(const Key& k)`: `tiles_.erase(key_(k))`. -/
def erase_key (a : Array T) (k : Nat) : Array T :=
  ⟨a.rank, a.tile_size, a.tiles_.erase a.rank k⟩

/-- The virtual `erase(const std::size_t i)`: its body is the call `erase(i)`,
for which overload resolution prefers the non-template function, that is this
function itself. The first argument bounds the depth of the calls; `none` is a
call that has not returned within it. -/
def erase : Nat → Array T → Nat → Option (Array T)
  | 0, _, _ => none
  | fuel + 1, a, i => erase fuel a i

/-- `probe(i)`, with `ref` naming the future `result`. -/
def probe (a : Array T) (i ref : Nat) : Pending Bool T :=
  let dest := a.tiles_.owner i
  let me := a.rank
  if dest = me then
    ⟨some (a.tiles_.find i).isSome, []⟩
  else
    ⟨none, [(dest, .send_probe me i ref)]⟩

/-- `send_probe(requester, i, ref)`, run on the process that received the
message: `find(i).get() != end()` is sent back. -/
def send_probe (a : Array T) (requester i ref : Nat) : List (Nat × ArrayMessage T) :=
  let result := (a.tiles_.find i).isSome
  [(requester, .receive_probe ref result)]

/-- `receive_probe(ref, p)`, run on the requester: `f->set(p)` on the future
that `ref` names; `futures` are the requester's futures. -/
def receive_probe (ref : Nat) (p : Bool) (futures : Nat → Option Bool) : Nat → Option Bool :=
  fun r => if r = ref then some p else futures r

/-- `find(i, v)`, with `ref` naming the future `result`. In the branch of the
owner the result of `tiles_.find(acc, i)` is not looked at; `acc->second` on an
accessor that stayed empty is undefined in C++ and an error here. -/
def find (a : Array T) (i : Nat) (v : List String) (ref : Nat) :
    Except String (Pending (Nat × AnnotatedTile T) T) :=
  let dest := a.tiles_.owner i
  let me := a.rank
  if dest = me then
    match a.tiles_.find i with
    | some tile => .ok ⟨some (i, tile.annotate v), []⟩
    | none => .error "undefined: dereference of an empty accessor"
  else
    .ok ⟨none, [(dest, .send_atile me i ref v)]⟩

/-- `send_atile(requester, i, ref, var)`, run on the process that received the
message. -/
def send_atile (a : Array T) (requester i ref : Nat) (var : List String) :
    List (Nat × ArrayMessage T) :=
  match a.tiles_.find i with
  | some tile => [(requester, .receive_atile ref i tile var)]
  | none => [(requester, .receive_no_atile ref i)]

/-- `receive_atile(ref, i, tile, var)`, run on the requester. -/
def receive_atile (ref i : Nat) (tile : Tile T) (var : List String)
    (futures : Nat → Option (Nat × AnnotatedTile T)) : Nat → Option (Nat × AnnotatedTile T) :=
  fun r => if r = ref then some (i, ⟨tile.size, var, tile.data⟩) else futures r

/-- `receive_no_atile(ref, i)`, run on the requester. -/
def receive_no_atile (ref i : Nat)
    (futures : Nat → Option (Nat × AnnotatedTile T)) : Nat → Option (Nat × AnnotatedTile T) :=
  fun r => if r = ref then some (i, AnnotatedTile.empty) else futures r

end Array

/-- Example: the array object on process 0 of a world in which process 0 owns
every tile; tile 0, of size 2 x 2, is stored, no other tile is. -/
def ex_array_owner : Array Int :=
  ⟨0, fun _ => [2, 2], ⟨fun _ => 0, fun k => if k = 0 then some ⟨[2, 2], [1, 2, 3, 4]⟩ else none, []⟩⟩

/-- Example: the array object on process 1 of the same world, which holds no
tile. -/
def ex_array_other : Array Int :=
  ⟨1, fun _ => [2, 2], ⟨fun _ => 0, fun _ => none, []⟩⟩

end TiledArray

namespace TiledArray

/-- `operator^=(boost::array<T,DIM>& a, const Permutation<DIM>& perm)`:
`return (a = perm ^ a);`; the result is the new content of `a`. -/
def xor_assign_array {α : Type} {DIM : Nat} (a : BArray α DIM) (perm : Permutation DIM)
    (uninit : BArray α DIM) : BArray α DIM :=
  xor_array perm a uninit

/-- `Permutation::operator^=(const Permutation<DIM>& other)`: `p_ ^= other;
return *this;`; the result is the object after the call. No constructor runs,
so nothing is checked. -/
def Permutation.xor_assign {DIM : Nat} (self other : Permutation DIM)
    (uninit : BArray Nat DIM) : Permutation DIM :=
  ⟨xor_assign_array self.p_ other uninit⟩

end TiledArray

/-- The macro `MATRIX_SIZE` of `dgemm.cpp`. -/
def MATRIX_SIZE : Nat := 8192

/-- The blocking vector that `ta_dgemm(world, block_size)` builds, for a matrix
of the given size (`const std::size_t size = MATRIX_SIZE;` in the source):
`num_blocks = size / block_size`, `blocking.push_back(0)` and, for `i` from 1
to `num_blocks`, `blocking.push_back(blocking[i-1] + block_size)`. The vector
holds `unsigned int`, so each boundary is stored modulo `2^32`. The source
divides by `block_size` without a test; it is called with a block size of at
least one. -/
def ta_dgemm.blocking (size block_size : Nat) : List Nat :=
  let num_blocks := size / block_size
  (List.range num_blocks).foldl
    (fun blocking j => blocking ++ [(blocking.getD j 0 + block_size) % 2 ^ 32]) [0]

/-- Modelled from the spec: the class `TiledRange1` is not among the sources;
built from boundaries `b₀, ..., b_T` it has the `T` tiles `[b_t, b_{t+1})`. -/
def TiledRange1.tile_count (boundaries : List Nat) : Nat := boundaries.length - 1

/-- Modelled from the spec: the class `TiledRange` is not among the sources; it
is the Cartesian product of its per-dimension ranges, so `tiles().volume()` is
the product of their tile counts. -/
def TiledRange.tiles_volume (dims : List (List Nat)) : Nat :=
  (dims.map TiledRange1.tile_count).prod

/-- The number that `ta_dgemm` prints as "Number of blocks":
`a.trange().tiles().volume()` for the tiled range built from `blocking` in both
dimensions. -/
def ta_dgemm.number_of_blocks (size block_size : Nat) : Nat :=
  TiledRange.tiles_volume [ta_dgemm.blocking size block_size, ta_dgemm.blocking size block_size]

namespace TiledArray

/-- Modelled from the spec: the values a sparse shape attaches to tiles, with
the operations a contraction uses: for bits OR and AND ("output bit `(i,j)` is
the OR over k of `lhs[i,k] ∧ rhs[k,j]`"), for numbers sum and product. `one` is
the scaling factor that changes nothing. -/
structure ShapeAlgebra (R : Type) where
  zero : R
  add : R → R → R
  mul : R → R → R
  one : R
  one_mul : ∀ x, mul one x = x

/-- Modelled from the spec: the sum of a list of values, taken from left to
right ("left-to-right over ordinals"). -/
def ShapeAlgebra.sum {R : Type} (alg : ShapeAlgebra R) (l : List R) : R :=
  l.foldl alg.add alg.zero

/-- Modelled from the spec: the algebra of bit shapes. -/
def bit_algebra : ShapeAlgebra Bool := ⟨false, or, and, true, fun _ => rfl⟩

/-- Modelled from the spec: the algebra of shapes that hold numbers of an exact
number type. -/
def numeric_algebra (Q : Type) [Semiring Q] : ShapeAlgebra Q :=
  ⟨0, fun a b => a + b, fun a b => a * b, 1, one_mul⟩

/-- Modelled from the spec: the transposition flags `madness::cblas::NoTrans`
and `madness::cblas::Trans`. -/
inductive CBLAS_TRANSPOSE where
  | NoTrans
  | Trans
deriving DecidableEq, Repr

/-- Modelled from the spec: the class `math::GemmHelper` is not among the
sources; it "carries transposition flags for l and r, rank of result, rank of
l, rank of r". -/
structure GemmHelper where
  left_op : CBLAS_TRANSPOSE
  right_op : CBLAS_TRANSPOSE
  result_rank : Nat
  left_rank : Nat
  right_rank : Nat
deriving DecidableEq, Repr

/-- Modelled from the spec: the class template `SparseShape` of
`TiledArray/sparse_shape.h` is not among the sources (only its test is).
`data()` is a tensor with one value for each tile: `size` is
`data().range().size()` and `data` is `data().data()`, in row-major order. -/
structure SparseShape (R : Type) (DIM : Nat) where
  size : BArray Nat DIM
  data : List R
deriving DecidableEq, Repr

namespace SparseShape

variable {R : Type} {DL DR : Nat}

/-- Modelled from the spec: the number of rows of the left operand viewed as a
matrix: its first extent (as the test takes it), its last one when the operand
is transposed. -/
def gemm_m (left : SparseShape R DL) (helper : GemmHelper) : Nat :=
  match helper.left_op with
  | .NoTrans => left.size.elems.headD 0
  | .Trans => left.size.elems.getLastD 0

/-- Modelled from the spec: the number of columns of the right operand viewed
as a matrix: its last extent (as the test takes it), its first one when the
operand is transposed. -/
def gemm_n (right : SparseShape R DR) (helper : GemmHelper) : Nat :=
  match helper.right_op with
  | .NoTrans => right.size.elems.getLastD 0
  | .Trans => right.size.elems.headD 0

/-- Modelled from the spec: the length of the contracted dimension, the number
of values of the left operand divided by its number of rows (as the test takes
it). -/
def gemm_k (left : SparseShape R DL) (helper : GemmHelper) : Nat :=
  left.data.length / left.gemm_m helper

/-- Modelled from the spec: the entry `(i, kk)` of the left operand viewed as
an `m` by `k` matrix, read from row-major data. -/
def gemm_left (alg : ShapeAlgebra R) (left : SparseShape R DL) (helper : GemmHelper)
    (i kk : Nat) : R :=
  match helper.left_op with
  | .NoTrans => left.data.getD (i * left.gemm_k helper + kk) alg.zero
  | .Trans => left.data.getD (kk * left.gemm_m helper + i) alg.zero

/-- Modelled from the spec: the entry `(kk, j)` of the right operand viewed as
a `k` by `n` matrix, read from row-major data. -/
def gemm_right (alg : ShapeAlgebra R) (right : SparseShape R DR) (helper : GemmHelper)
    (k kk j : Nat) : R :=
  match helper.right_op with
  | .NoTrans => right.data.getD (kk * right.gemm_n helper + j) alg.zero
  | .Trans => right.data.getD (j * k + kk) alg.zero

/-- Modelled from the spec: `left.gemm(right, factor, helper)` for a result of
rank two: the shape with extents `(m, n)` whose value at `(i, j)` is the factor
times the sum over `kk` of `left[i, kk] * right[kk, j]` ("contraction shape is
the boolean matrix product"). -/
def gemm (alg : ShapeAlgebra R) (left : SparseShape R DL) (right : SparseShape R DR)
    (factor : R) (helper : GemmHelper) : SparseShape R 2 :=
  let m := left.gemm_m helper
  let n := right.gemm_n helper
  let k := left.gemm_k helper
  ⟨⟨[m, n], rfl⟩, (List.range (m * n)).map (fun t =>
    alg.mul factor (alg.sum ((List.range k).map (fun kk =>
      alg.mul (left.gemm_left alg helper (t / n) kk)
        (right.gemm_right alg helper k kk (t % n))))))⟩

/-- Modelled from the spec: the value of a shape of rank two at the tile index
`(i, j)` (`result[i]` in the test): the entry of the data at the ordinal of the
index. -/
def get2 (s : SparseShape R 2) (i j : Nat) : Option R :=
  s.data[ordinal .decreasing_dimension_order s.size ⟨[i, j], rfl⟩]?

/-- Modelled from the spec: `perm(p)`: "`permute(p)` produces a new shape by
relocating bits": the extents are permuted and the values are moved by
`detail::Permute` of `permutation.h`. `fresh` is the prior content of the new
data; the arrays are the prior contents of arrays that C++ leaves
uninitialised. -/
def perm {DIM : Nat} (s : SparseShape R DIM) (p : Permutation DIM) (fresh : List R)
    (u_size u_step u_ip u_res : BArray Nat DIM) : Except String (SparseShape R DIM) := do
  let st ← detail.Permute .decreasing_dimension_order ⟨s.size⟩ p fresh s.data u_size u_step u_ip
  pure ⟨xor_array p s.size u_res, st.out⟩

end SparseShape

/-- Example: a bit shape over a 2 x 3 grid of tiles. -/
def ex_shape_left : SparseShape Bool 2 := ⟨⟨[2, 3], rfl⟩, [true, false, false, false, true, true]⟩

/-- Example: a bit shape over a 3 x 2 grid of tiles. -/
def ex_shape_right : SparseShape Bool 2 := ⟨⟨[3, 2], rfl⟩, [false, true, false, false, true, false]⟩

/-- Example: the helper of a contraction without transposition, all ranks being
two. -/
def ex_helper : GemmHelper := ⟨.NoTrans, .NoTrans, 2, 2, 2⟩

end TiledArray

/-! ## Permutations: stores made by `detail::permute`, validity -/

namespace TiledArray

namespace detail

theorem permute_getElem?_of_not_mem {α : Type} (p : List Nat) (o r : List α) (j : Nat)
    (hj : j ∉ p) : (permute p o r)[j]? = r[j]? := by
  induction p generalizing o r with
  | nil => simp [permute]
  | cons pi ps ih =>
    cases o with
    | nil => simp [permute]
    | cons x xs =>
      simp only [List.mem_cons, not_or] at hj
      simp only [permute]
      rw [ih xs _ hj.2, List.getElem?_set_ne (Ne.symm hj.1)]

theorem permute_getElem?_at {α : Type} (p : List Nat) (o r : List α) (hnd : p.Nodup)
    (hr : ∀ x ∈ p, x < r.length) (i : Nat) (hi : i < p.length) (hio : i < o.length) :
    (permute p o r)[p[i]]? = some o[i] := by
  induction p generalizing o r i with
  | nil => simp at hi
  | cons pi ps ih =>
    cases o with
    | nil => simp at hio
    | cons x xs =>
      rw [List.nodup_cons] at hnd
      simp only [permute]
      cases i with
      | zero =>
        simp only [List.getElem_cons_zero]
        rw [permute_getElem?_of_not_mem ps xs _ pi hnd.1]
        exact List.getElem?_set_self (hr pi (List.mem_cons_self _ _))
      | succ k =>
        simp only [List.getElem_cons_succ]
        apply ih xs _ hnd.2
        intro y hy
        rw [List.length_set]
        exact hr y (List.mem_cons_of_mem _ hy)

end detail

namespace Permutation

theorem valid_loop_iff (DIM : Nat) (l count : List Nat) (hc : count.length = DIM) :
    valid_loop DIM l count = true ↔
      (∀ x ∈ l, x < DIM ∧ count.getD x 0 = 0) ∧ l.Nodup := by
  induction l generalizing count with
  | nil => simp [valid_loop]
  | cons i rest ih =>
    simp only [valid_loop]
    by_cases h1 : i ≥ DIM
    · simp only [h1, if_true]
      constructor
      · intro h; cases h
      · intro h
        have := (h.1 i (List.mem_cons_self _ _)).1
        omega
    · simp only [h1, if_false]
      by_cases h2 : count.getD i 0 > 0
      · simp only [h2, if_true]
        constructor
        · intro h; cases h
        · intro h
          have := (h.1 i (List.mem_cons_self _ _)).2
          omega
      · simp only [h2, if_false]
        have hi : i < count.length := by omega
        have h0 : count.getD i 0 = 0 := by omega
        rw [ih _ (by rw [List.length_set]; exact hc)]
        have key : ∀ y, (count.set i (count.getD i 0 + 1)).getD y 0
            = if i = y then 1 else count.getD y 0 := by
          intro y
          rw [List.getD_eq_getElem?_getD, List.getElem?_set, h0]
          by_cases hy : i = y
          · subst hy
            simp [hi]
          · simp [hy, List.getD_eq_getElem?_getD]
        constructor
        · rintro ⟨ha, hnd⟩
          refine ⟨?_, ?_⟩
          · intro x hx
            rcases List.mem_cons.1 hx with rfl | hx
            · exact ⟨by omega, h0⟩
            · have := ha x hx
              rw [key] at this
              by_cases hy : i = x
              · simp [hy] at this
              · simpa [hy] using this
          · rw [List.nodup_cons]
            refine ⟨?_, hnd⟩
            intro hmem
            have := (ha i hmem).2
            rw [key] at this
            simp at this
        · rintro ⟨ha, hnd⟩
          rw [List.nodup_cons] at hnd
          refine ⟨?_, hnd.2⟩
          intro x hx
          have hxi : i ≠ x := by
            rintro rfl
            exact hnd.1 hx
          rw [key]
          simpa [hxi] using ha x (List.mem_cons_of_mem _ hx)

theorem valid__iff (DIM : Nat) (l : List Nat) :
    valid_ DIM l = true ↔ (∀ x ∈ l, x < DIM) ∧ l.Nodup := by
  unfold valid_
  rw [valid_loop_iff DIM l _ (BArray.assign DIM 0).size_eq]
  constructor
  · rintro ⟨h, hnd⟩
    exact ⟨fun x hx => (h x hx).1, hnd⟩
  · rintro ⟨h, hnd⟩
    refine ⟨fun x hx => ⟨h x hx, ?_⟩, hnd⟩
    simp only [BArray.assign, List.getD_eq_getElem?_getD, List.getElem?_replicate]
    split <;> rfl

end Permutation

end TiledArray

namespace TiledArray

theorem BArray.ext_elems {α : Type} {N : Nat} {a b : BArray α N} (h : a.elems = b.elems) :
    a = b := by
  cases a; cases b
  simp only at h
  subst h
  rfl

namespace detail

/-- The store made for entry `i` of the permutation, in option form: if entry
`i` is `k`, the result holds at `k` what the original holds at `i`. -/
theorem permute_getElem?_of {α : Type} (p : List Nat) (o r : List α) (hnd : p.Nodup)
    (hr : ∀ x ∈ p, x < r.length) (hlen : p.length ≤ o.length) {i k : Nat}
    (hk : p[i]? = some k) : (permute p o r)[k]? = o[i]? := by
  obtain ⟨hi, rfl⟩ := List.getElem?_eq_some.1 hk
  have hio : i < o.length := by omega
  rw [permute_getElem?_at p o r hnd hr i hi hio, List.getElem?_eq_getElem hio]

end detail

theorem IsPermList.mem {DIM : Nat} {l : List Nat} (h : IsPermList DIM l) {a : Nat}
    (ha : a < DIM) : a ∈ l := by
  obtain ⟨hlen, hlt, hnd⟩ := h
  have hsub : l ⊆ List.range DIM := fun x hx => List.mem_range.2 (hlt x hx)
  have hperm := (List.subperm_of_subset hnd hsub).perm_of_length_le (by simp [hlen])
  exact hperm.symm.subset (List.mem_range.2 ha)

theorem IsPermList.exists_index {DIM : Nat} {l : List Nat} (h : IsPermList DIM l) {a : Nat}
    (ha : a < DIM) : ∃ i, i < DIM ∧ l[i]? = some a := by
  obtain ⟨i, hi, hia⟩ := List.mem_iff_getElem.1 (h.mem ha)
  exact ⟨i, h.1 ▸ hi, by rw [List.getElem?_eq_getElem hi, hia]⟩

theorem IsPermList.range (DIM : Nat) : IsPermList DIM (List.range DIM) :=
  ⟨List.length_range DIM, fun _ hx => List.mem_range.1 hx, List.nodup_range DIM⟩

theorem IsPermList.getElem?_lt {DIM : Nat} {l : List Nat} (h : IsPermList DIM l) {i k : Nat}
    (hk : l[i]? = some k) : k < DIM := by
  obtain ⟨hi, rfl⟩ := List.getElem?_eq_some.1 hk
  exact h.2.1 _ (List.getElem_mem _)

theorem IsPermList.getElem?_inj {DIM : Nat} {l : List Nat} (h : IsPermList DIM l)
    {i j k : Nat} (hi : l[i]? = some k) (hj : l[j]? = some k) : i = j := by
  obtain ⟨hi', e1⟩ := List.getElem?_eq_some.1 hi
  obtain ⟨hj', e2⟩ := List.getElem?_eq_some.1 hj
  exact (h.2.2.getElem_inj_iff).1 (e1.trans e2.symm)

/-- Permuting by a permutation list: the result at entry `k = p[i]` is the
original at `i`. -/
theorem IsPermList.permute_get {α : Type} {DIM : Nat} {p : List Nat} (hp : IsPermList DIM p)
    (o r : List α) (ho : o.length = DIM) (hr : r.length = DIM) {i k : Nat}
    (hk : p[i]? = some k) : (detail.permute p o r)[k]? = o[i]? :=
  detail.permute_getElem?_of p o r hp.2.2 (fun x hx => hr ▸ hp.2.1 x hx)
    (by rw [hp.1, ho]) hk

/-- Two lists of `DIM` elements that agree at every image position of a
permutation list are equal. -/
theorem IsPermList.ext_at {α : Type} {DIM : Nat} {p : List Nat} (hp : IsPermList DIM p)
    (l₁ l₂ : List α) (h₁ : l₁.length = DIM) (h₂ : l₂.length = DIM)
    (h : ∀ i k : Nat, p[i]? = some k → l₁[k]? = l₂[k]?) : l₁ = l₂ := by
  apply List.ext_getElem?
  intro n
  by_cases hn : n < DIM
  · obtain ⟨i, _, hi⟩ := hp.exists_index hn
    exact h i n hi
  · rw [List.getElem?_eq_none (by omega), List.getElem?_eq_none (by omega)]

/-- Permuting a permutation list by a permutation list gives a permutation
list. -/
theorem IsPermList.permute {DIM : Nat} {p q : List Nat} (hp : IsPermList DIM p)
    (hq : IsPermList DIM q) (r : List Nat) (hr : r.length = DIM) :
    IsPermList DIM (detail.permute p q r) := by
  have hlen : (detail.permute p q r).length = DIM := by rw [detail.permute_length, hr]
  have hval : ∀ n v : Nat, (detail.permute p q r)[n]? = some v →
      ∃ i : Nat, p[i]? = some n ∧ q[i]? = some v := by
    intro n v hnv
    have hn : n < DIM := by
      obtain ⟨h, _⟩ := List.getElem?_eq_some.1 hnv
      omega
    obtain ⟨i, _, hi⟩ := hp.exists_index hn
    refine ⟨i, hi, ?_⟩
    rw [← hp.permute_get q r hq.1 hr hi]
    exact hnv
  refine ⟨hlen, ?_, ?_⟩
  · intro x hx
    obtain ⟨n, hn⟩ := List.mem_iff_getElem?.1 hx
    obtain ⟨i, _, hqi⟩ := hval n x hn
    exact hq.getElem?_lt hqi
  · rw [List.nodup_iff_getElem?_ne_getElem?]
    intro a b hab hb heq
    have ha : a < (detail.permute p q r).length := by omega
    have hva := List.getElem?_eq_getElem ha
    obtain ⟨i, hpi, hqi⟩ := hval _ _ hva
    rw [heq] at hva
    obtain ⟨j, hpj, hqj⟩ := hval _ _ hva
    have hij : i = j := hq.getElem?_inj hqi hqj
    subst hij
    rw [hpi] at hpj
    have : a = b := Option.some.inj hpj
    omega

namespace Permutation

variable {DIM : Nat}

theorem Valid.isPermList {p : Permutation DIM} (hp : p.Valid) : IsPermList DIM p.p_.elems :=
  ⟨p.p_.size_eq, ((valid__iff DIM _).1 hp).1, ((valid__iff DIM _).1 hp).2⟩

theorem valid_of_isPermList {p : Permutation DIM} (h : IsPermList DIM p.p_.elems) : p.Valid :=
  (valid__iff DIM _).2 ⟨h.2.1, h.2.2⟩

theorem fromArray_eq (source : BArray Nat DIM) :
    fromArray source =
      if valid_ DIM source.elems = true then .ok ⟨source⟩
      else .error "Invalid permutation supplied." := by
  unfold fromArray TA_ASSERT
  by_cases h : valid_ DIM source.elems = true
  · simp only [h, if_true]; rfl
  · simp only [h]; rfl

theorem unit_eq (DIM : Nat) : unit DIM = .ok ⟨iota DIM⟩ := by
  have hv : valid_ DIM (List.range DIM) = true :=
    (valid__iff DIM _).2 ⟨(IsPermList.range DIM).2.1, (IsPermList.range DIM).2.2⟩
  have ht : detail.initialize_from_values DIM (List.range DIM) (by simp) = iota DIM := by
    unfold detail.initialize_from_values iota
    congr 1
    rw [List.take_range, Nat.min_self]
  unfold unit make_unit_permutation fromIter TA_ASSERT
  simp only [ht, iota, hv, if_true]
  rfl

end Permutation

theorem xor_perm_eq {DIM : Nat} (p q : Permutation DIM) (hp : p.Valid) (hq : q.Valid)
    (uninit : BArray Nat DIM) :
    xor_perm p q uninit = .ok ⟨xor_array p q.p_ uninit⟩ ∧
      IsPermList DIM (xor_array p q.p_ uninit).elems := by
  have h := hp.isPermList.permute hq.isPermList uninit.elems uninit.size_eq
  refine ⟨?_, h⟩
  unfold xor_perm
  rw [Permutation.fromArray_eq, if_pos]
  exact (Permutation.valid__iff DIM _).2 ⟨h.2.1, h.2.2⟩

theorem Permutation.neg_eq {DIM : Nat} (p : Permutation DIM) (hp : p.Valid)
    (uninit : BArray Nat DIM) :
    p.neg uninit = .ok ⟨xor_array p (Permutation.iota DIM) uninit⟩ ∧
      IsPermList DIM (xor_array p (Permutation.iota DIM) uninit).elems ∧
      ∀ i k : Nat, p.p_.elems[i]? = some k →
        (xor_array p (Permutation.iota DIM) uninit).elems[k]? = some i := by
  have hu : (⟨Permutation.iota DIM⟩ : Permutation DIM).Valid :=
    Permutation.valid_of_isPermList (IsPermList.range DIM)
  obtain ⟨h1, h2⟩ := xor_perm_eq p ⟨Permutation.iota DIM⟩ hp hu uninit
  refine ⟨?_, h2, ?_⟩
  · unfold Permutation.neg
    rw [Permutation.unit_eq]
    exact h1
  · intro i k hk
    have hi : i < DIM := by
      obtain ⟨h, _⟩ := List.getElem?_eq_some.1 hk
      rw [p.p_.size_eq] at h; exact h
    have := hp.isPermList.permute_get (Permutation.iota DIM).elems uninit.elems
      (Permutation.iota DIM).size_eq uninit.size_eq hk
    show (detail.permute p.p_.elems (Permutation.iota DIM).elems uninit.elems)[k]? = some i
    rw [this]
    exact List.getElem?_range hi

/-- C1: for a valid permutation `p` and a `DIM`-element array `x`, the element
at position `i` of `x` is found at position `p[i]` of `p ^ x`, whatever the
result storage held before. -/
theorem C1_array_image_position {α : Type} {DIM : Nat} (p : Permutation DIM) (hp : p.Valid)
    (x uninit : BArray α DIM) (i : Fin DIM) :
    (xor_array p x uninit).elems[p.get i]? = some (x.get i) := by
  have hi : i.1 < p.p_.elems.length := by rw [p.p_.size_eq]; exact i.2
  have hx : i.1 < x.elems.length := by rw [x.size_eq]; exact i.2
  have hk : p.p_.elems[i.1]? = some (p.get i) := List.getElem?_eq_getElem hi
  have := hp.isPermList.permute_get x.elems uninit.elems x.size_eq uninit.size_eq hk
  unfold xor_array
  simp only
  rw [this, List.getElem?_eq_getElem hx]
  rfl

theorem C1_array_image_position_witness :
    (xor_array ex_cycle ex_data ex_junk).elems[ex_cycle.get 0]? = some (ex_data.get 0) :=
  C1_array_image_position ex_cycle (by decide) ex_data ex_junk 0

/-- C2: for a valid permutation `p` the reverse permutation `-p` is built
without error and undoes `p`: with `c2 = p ^ c1`, `(-p) ^ c2 = c1`. -/
theorem C2_reverse_undoes {α : Type} {DIM : Nat} (p : Permutation DIM) (hp : p.Valid)
    (c1 u1 u2 : BArray α DIM) (u0 : BArray Nat DIM) :
    ∃ ip, p.neg u0 = .ok ip ∧ xor_array ip (xor_array p c1 u1) u2 = c1 := by
  obtain ⟨hneg, hip, hinv⟩ := p.neg_eq hp u0
  refine ⟨_, hneg, ?_⟩
  have hlen : (xor_array ⟨xor_array p (Permutation.iota DIM) u0⟩ (xor_array p c1 u1) u2).elems.length
      = DIM := BArray.size_eq _
  apply BArray.ext_elems
  apply List.ext_getElem?
  intro n
  by_cases hn : n < DIM
  · have hpn : n < p.p_.elems.length := by rw [p.p_.size_eq]; exact hn
    have hk := List.getElem?_eq_getElem hpn
    have h1 := hinv n _ hk
    have h2 := hip.permute_get (xor_array p c1 u1).elems u2.elems (BArray.size_eq _)
      u2.size_eq h1
    have h3 := hp.isPermList.permute_get c1.elems u1.elems c1.size_eq u1.size_eq hk
    simp only [xor_array] at h2 h3 ⊢
    rw [h2, h3]
  · rw [List.getElem?_eq_none (by omega), List.getElem?_eq_none (by rw [c1.size_eq]; omega)]

theorem C2_reverse_undoes_witness :
    ∃ ip, ex_cycle.neg ex_junk = .ok ip ∧
      xor_array ip (xor_array ex_cycle ex_data ex_junk) ex_junk = ex_data :=
  C2_reverse_undoes ex_cycle (by decide) ex_data ex_junk ex_junk ex_junk

/-- Shared by the amended composition laws: applying `p ^ q` to `x` is
applying the reverse of `p` and then `q`, on lists. -/
theorem IsPermList.permute_permute {α : Type} {DIM : Nat} {p q : List Nat}
    (hp : IsPermList DIM p) (hq : IsPermList DIM q) (x u1 u3 u4 : List α) (u0 u2 : List Nat)
    (hx : x.length = DIM) (h0 : u0.length = DIM) (h1 : u1.length = DIM)
    (h2 : u2.length = DIM) (h3 : u3.length = DIM) (h4 : u4.length = DIM) :
    detail.permute (detail.permute p q u0) x u1 =
      detail.permute q (detail.permute (detail.permute p (List.range DIM) u2) x u3) u4 := by
  have hpq := hp.permute hq u0 h0
  have hip := hp.permute (IsPermList.range DIM) u2 h2
  apply hq.ext_at _ _ (by rw [detail.permute_length, h1]) (by rw [detail.permute_length, h4])
  intro i k hk
  have hi : i < p.length := by
    obtain ⟨h, _⟩ := List.getElem?_eq_some.1 hk
    rw [hp.1, ← hq.1]; exact h
  have hj := List.getElem?_eq_getElem hi
  have e1 : (detail.permute p q u0)[p[i]]? = some k := by
    rw [hp.permute_get q u0 hq.1 h0 hj, hk]
  have e2 : (detail.permute p (List.range DIM) u2)[p[i]]? = some i := by
    rw [hp.permute_get _ u2 (List.length_range DIM) h2 hj]
    exact List.getElem?_range (hp.1 ▸ hi)
  rw [hpq.permute_get x u1 hx h1 e1,
    hq.permute_get _ u4 (by rw [detail.permute_length, h3]) h4 hk,
    hip.permute_get x u3 hx h3 e2]

/-- C3 as stated fails: for the cycle `(1, 2, 0)`, `p ^ (-p)` is `(1, 2, 0)`,
not the unit permutation. -/
theorem C3_counterexample :
    ex_cycle.Valid ∧
      (ex_cycle.neg ex_junk >>= fun ip => xor_perm ex_cycle ip ex_junk) = .ok ex_cycle ∧
      (ex_cycle.neg ex_junk >>= fun ip => xor_perm ex_cycle ip ex_junk)
        ≠ Permutation.unit 3 := by
  decide

/-- C3 amended: for a valid `p`, `p ^ (-p)` is built without error and is the
permutation `r` with `r[p[p[i]]] = i`; it is the unit permutation exactly when
`p[p[i]] = i` for every `i`. -/
theorem C3_inverse_product {DIM : Nat} (p : Permutation DIM) (hp : p.Valid)
    (u0 u1 : BArray Nat DIM) :
    ∃ ip r, p.neg u0 = .ok ip ∧ xor_perm p ip u1 = .ok r ∧
      (∀ i j k : Nat, p.p_.elems[i]? = some j → p.p_.elems[j]? = some k →
        r.p_.elems[k]? = some i) ∧
      (Permutation.unit DIM = .ok r ↔
        ∀ i j : Nat, p.p_.elems[i]? = some j → p.p_.elems[j]? = some i) := by
  obtain ⟨hneg, hip, hinv⟩ := p.neg_eq hp u0
  have hipv : (⟨xor_array p (Permutation.iota DIM) u0⟩ : Permutation DIM).Valid :=
    Permutation.valid_of_isPermList hip
  obtain ⟨hr, hrp⟩ := xor_perm_eq p ⟨xor_array p (Permutation.iota DIM) u0⟩ hp hipv u1
  have hP := hp.isPermList
  have hrec : ∀ i j k : Nat, p.p_.elems[i]? = some j → p.p_.elems[j]? = some k →
      (xor_array p (xor_array p (Permutation.iota DIM) u0) u1).elems[k]? = some i := by
    intro i j k hij hjk
    have := hP.permute_get (xor_array p (Permutation.iota DIM) u0).elems u1.elems
      (BArray.size_eq _) u1.size_eq hjk
    show (detail.permute p.p_.elems (xor_array p (Permutation.iota DIM) u0).elems
      u1.elems)[k]? = some i
    rw [this]
    exact hinv i j hij
  refine ⟨_, _, hneg, hr, hrec, ?_⟩
  rw [Permutation.unit_eq]
  constructor
  · intro h i j hij
    have hj : j < DIM := hP.getElem?_lt hij
    have hjl : j < p.p_.elems.length := by rw [p.p_.size_eq]; exact hj
    have hjk := List.getElem?_eq_getElem hjl
    have h1 := hrec i j _ hij hjk
    have h2 : (xor_array p (xor_array p (Permutation.iota DIM) u0) u1).elems
        = List.range DIM := by
      injection h with h
      injection h with h
      rw [← h]; rfl
    rw [h2, List.getElem?_range (hP.getElem?_lt hjk)] at h1
    rw [hjk, h1]
  · intro h
    congr 2
    apply BArray.ext_elems
    apply hP.ext_at _ _ (Permutation.iota DIM).size_eq (BArray.size_eq _)
    intro j k hjk
    have hj : j < DIM := by
      obtain ⟨hh, _⟩ := List.getElem?_eq_some.1 hjk
      rw [p.p_.size_eq] at hh; exact hh
    obtain ⟨i, _, hij⟩ := hP.exists_index hj
    rw [hrec i j k hij hjk]
    have hki : k = i := by
      have := h i j hij
      rw [hjk] at this
      exact Option.some.inj this
    subst hki
    exact List.getElem?_range (hP.getElem?_lt hjk)

theorem C3_inverse_product_witness :
    ∃ ip r, ex_swap.neg ex_junk = .ok ip ∧ xor_perm ex_swap ip ex_junk = .ok r ∧
      (∀ i j k : Nat, ex_swap.p_.elems[i]? = some j → ex_swap.p_.elems[j]? = some k →
        r.p_.elems[k]? = some i) ∧
      (Permutation.unit 3 = .ok r ↔
        ∀ i j : Nat, ex_swap.p_.elems[i]? = some j → ex_swap.p_.elems[j]? = some i) :=
  C3_inverse_product ex_swap (by decide) ex_junk ex_junk

/-- C4 as stated fails: with `p` the cycle `(1, 2, 0)` and `q = r` the
identity, `(p ^ q) ^ r` is `(1, 2, 0)` while `p ^ (q ^ r)` is `(2, 0, 1)`. -/
theorem C4_counterexample :
    ex_cycle.Valid ∧ ex_id.Valid ∧
      (xor_perm ex_cycle ex_id ex_junk >>= fun pq => xor_perm pq ex_id ex_junk)
        = .ok ex_cycle ∧
      (xor_perm ex_id ex_id ex_junk >>= fun qr => xor_perm ex_cycle qr ex_junk)
        = .ok ⟨⟨[2, 0, 1], rfl⟩⟩ ∧
      (xor_perm ex_cycle ex_id ex_junk >>= fun pq => xor_perm pq ex_id ex_junk)
        ≠ (xor_perm ex_id ex_id ex_junk >>= fun qr => xor_perm ex_cycle qr ex_junk) := by
  decide

/-- C4 amended: for valid `p`, `q`, `r` of one dimension every product below
is built without error and `(p ^ q) ^ r = q ^ ((-p) ^ r)`. -/
theorem C4_product_regrouping {DIM : Nat} (p q r : Permutation DIM) (hp : p.Valid)
    (hq : q.Valid) (hr : r.Valid) (u0 u1 u2 u3 u4 : BArray Nat DIM) :
    ∃ pq ip ipr s, xor_perm p q u0 = .ok pq ∧ p.neg u2 = .ok ip ∧
      xor_perm ip r u3 = .ok ipr ∧ xor_perm pq r u1 = .ok s ∧ xor_perm q ipr u4 = .ok s := by
  obtain ⟨hneg, hip, _⟩ := p.neg_eq hp u2
  obtain ⟨hpq, hpqp⟩ := xor_perm_eq p q hp hq u0
  have hipv : (⟨xor_array p (Permutation.iota DIM) u2⟩ : Permutation DIM).Valid :=
    Permutation.valid_of_isPermList hip
  have hpqv : (⟨xor_array p q.p_ u0⟩ : Permutation DIM).Valid :=
    Permutation.valid_of_isPermList hpqp
  obtain ⟨hipr, hiprp⟩ := xor_perm_eq ⟨xor_array p (Permutation.iota DIM) u2⟩ r hipv hr u3
  have hiprv : (⟨xor_array ⟨xor_array p (Permutation.iota DIM) u2⟩ r.p_ u3⟩ :
      Permutation DIM).Valid := Permutation.valid_of_isPermList hiprp
  obtain ⟨hl, _⟩ := xor_perm_eq ⟨xor_array p q.p_ u0⟩ r hpqv hr u1
  obtain ⟨hrr, _⟩ := xor_perm_eq q
    ⟨xor_array ⟨xor_array p (Permutation.iota DIM) u2⟩ r.p_ u3⟩ hq hiprv u4
  refine ⟨_, _, _, _, hpq, hneg, hipr, hl, ?_⟩
  rw [hrr]
  congr 2
  apply BArray.ext_elems
  exact (hp.isPermList.permute_permute hq.isPermList r.p_.elems u1.elems u3.elems u4.elems
    u0.elems u2.elems r.p_.size_eq u0.size_eq u1.size_eq u2.size_eq u3.size_eq
    u4.size_eq).symm

theorem C4_product_regrouping_witness :
    ∃ pq ip ipr s, xor_perm ex_cycle ex_swap ex_junk = .ok pq ∧
      ex_cycle.neg ex_junk = .ok ip ∧ xor_perm ip ex_cycle ex_junk = .ok ipr ∧
      xor_perm pq ex_cycle ex_junk = .ok s ∧ xor_perm ex_swap ipr ex_junk = .ok s :=
  C4_product_regrouping ex_cycle ex_swap ex_cycle (by decide) (by decide) (by decide)
    ex_junk ex_junk ex_junk ex_junk ex_junk

/-- C5 as stated fails: with `p` the cycle `(1, 2, 0)`, `q` the identity and
`x = (10, 20, 30)`, `(p ^ q) ^ x` is `(20, 30, 10)` while `p ^ (q ^ x)` is
`(30, 10, 20)`. -/
theorem C5_counterexample :
    ex_cycle.Valid ∧ ex_id.Valid ∧
      (xor_perm ex_cycle ex_id ex_junk >>= fun pq => pure (xor_array pq ex_data ex_junk))
        = .ok ⟨[20, 30, 10], rfl⟩ ∧
      xor_array ex_cycle (xor_array ex_id ex_data ex_junk) ex_junk = ⟨[30, 10, 20], rfl⟩ ∧
      (xor_perm ex_cycle ex_id ex_junk >>= fun pq => pure (xor_array pq ex_data ex_junk))
        ≠ .ok (xor_array ex_cycle (xor_array ex_id ex_data ex_junk) ex_junk) := by
  decide

/-- C5 amended: for valid `p`, `q` and a `DIM`-element array `x`, applying
`p ^ q` equals applying the reverse of `p` and then `q`:
`(p ^ q) ^ x = q ^ ((-p) ^ x)`, with `p ^ q` and `-p` built without error. -/
theorem C5_apply_product {α : Type} {DIM : Nat} (p q : Permutation DIM) (hp : p.Valid)
    (hq : q.Valid) (x u1 u3 u4 : BArray α DIM) (u0 u2 : BArray Nat DIM) :
    ∃ pq ip, xor_perm p q u0 = .ok pq ∧ p.neg u2 = .ok ip ∧
      xor_array pq x u1 = xor_array q (xor_array ip x u3) u4 := by
  obtain ⟨hneg, _, _⟩ := p.neg_eq hp u2
  obtain ⟨hpq, _⟩ := xor_perm_eq p q hp hq u0
  refine ⟨_, _, hpq, hneg, ?_⟩
  apply BArray.ext_elems
  exact hp.isPermList.permute_permute hq.isPermList x.elems u1.elems u3.elems u4.elems
    u0.elems u2.elems x.size_eq u0.size_eq u1.size_eq u2.size_eq u3.size_eq u4.size_eq

theorem C5_apply_product_witness :
    ∃ pq ip, xor_perm ex_cycle ex_swap ex_junk = .ok pq ∧ ex_cycle.neg ex_junk = .ok ip ∧
      xor_array pq ex_data ex_junk = xor_array ex_swap (xor_array ip ex_data ex_junk) ex_junk :=
  C5_apply_product ex_cycle ex_swap (by decide) (by decide) ex_data ex_junk ex_junk ex_junk
    ex_junk ex_junk

theorem Permutation.fromIter_eq {DIM : Nat} (first : List Nat) (h : DIM ≤ first.length) :
    Permutation.fromIter first h =
      if Permutation.valid_ DIM (first.take DIM) = true then
        .ok ⟨detail.initialize_from_values DIM first h⟩
      else .error "Invalid permutation supplied." := by
  unfold Permutation.fromIter TA_ASSERT
  by_cases hv : Permutation.valid_ DIM (first.take DIM) = true
  · simp only [detail.initialize_from_values, hv, if_true]; rfl
  · simp only [detail.initialize_from_values, hv]; rfl

/-- A valid permutation's entries are the values of a bijection of
`{0, ..., DIM - 1}`. -/
theorem Permutation.Valid.bijective {DIM : Nat} {p : Permutation DIM} (hp : p.Valid) :
    ∃ f : Fin DIM → Fin DIM, Function.Bijective f ∧ ∀ i, (f i).1 = p.get i := by
  have hP := hp.isPermList
  have hlt : ∀ i : Fin DIM, p.get i < DIM := fun i => hP.2.1 _ (List.get_mem _ _ _)
  refine ⟨fun i => ⟨p.get i, hlt i⟩, ?_, fun _ => rfl⟩
  rw [Fintype.bijective_iff_injective_and_card]
  refine ⟨?_, rfl⟩
  intro i j hij
  have h1 : p.get i = p.get j := congrArg Fin.val hij
  have h2 := (List.nodup_iff_injective_get.1 hP.2.2) h1
  exact Fin.ext (Fin.mk.inj h2)

/-- C6: the array constructor and the iterator constructor succeed exactly
when every entry is below `DIM` and no entry occurs twice, and otherwise raise
"Invalid permutation supplied."; a successfully constructed permutation is a
bijection of `{0, ..., DIM - 1}`. -/
theorem C6_checked_construction {DIM : Nat} (source : BArray Nat DIM) (first : List Nat)
    (h : DIM ≤ first.length) :
    (Permutation.fromArray source =
      if (∀ x ∈ source.elems, x < DIM) ∧ source.elems.Nodup then .ok ⟨source⟩
      else .error "Invalid permutation supplied.") ∧
    (Permutation.fromIter first h =
      if (∀ x ∈ first.take DIM, x < DIM) ∧ (first.take DIM).Nodup then
        .ok ⟨detail.initialize_from_values DIM first h⟩
      else .error "Invalid permutation supplied.") ∧
    (∀ p, Permutation.fromArray source = .ok p ∨ Permutation.fromIter first h = .ok p →
      ∃ f : Fin DIM → Fin DIM, Function.Bijective f ∧ ∀ i, (f i).1 = p.get i) := by
  refine ⟨?_, ?_, ?_⟩
  · rw [Permutation.fromArray_eq]
    simp only [Permutation.valid__iff]
  · rw [Permutation.fromIter_eq]
    simp only [Permutation.valid__iff]
  · intro p hp
    apply Permutation.Valid.bijective
    rcases hp with hp | hp
    · rw [Permutation.fromArray_eq] at hp
      by_cases hv : Permutation.valid_ DIM source.elems = true
      · rw [if_pos hv] at hp
        injection hp with hp
        subst hp
        exact hv
      · rw [if_neg hv] at hp
        cases hp
    · rw [Permutation.fromIter_eq] at hp
      by_cases hv : Permutation.valid_ DIM (first.take DIM) = true
      · rw [if_pos hv] at hp
        injection hp with hp
        subst hp
        exact hv
      · rw [if_neg hv] at hp
        cases hp

theorem C6_checked_construction_witness :
    (Permutation.fromArray ex_data =
      if (∀ x ∈ ex_data.elems, x < 3) ∧ ex_data.elems.Nodup then .ok ⟨ex_data⟩
      else .error "Invalid permutation supplied.") ∧
    (Permutation.fromIter [1, 2, 0, 5] (by decide) =
      if (∀ x ∈ [1, 2, 0, 5].take 3, x < 3) ∧ ([1, 2, 0, 5].take 3).Nodup then
        .ok ⟨detail.initialize_from_values 3 [1, 2, 0, 5] (by decide)⟩
      else .error "Invalid permutation supplied.") ∧
    (∀ p, Permutation.fromArray ex_data = .ok p ∨
        Permutation.fromIter [1, 2, 0, 5] (by decide) = .ok p →
      ∃ f : Fin 3 → Fin 3, Function.Bijective f ∧ ∀ i, (f i).1 = p.get i) :=
  C6_checked_construction ex_data [1, 2, 0, 5] (by decide)

/-- C7, evaluated at the failing input: the parameter-pack form accepts the
arguments `(0, 0)` for `DIM = 2` and builds an object that is not a valid
permutation, where the `va_list` form raises "Invalid permutation supplied.";
an out-of-range argument `(0, 5)` is accepted likewise. -/
theorem C7_pack_form_unchecked :
    Permutation.fromPack (⟨[0, 0], rfl⟩ : BArray Nat 2) = .ok ⟨⟨[0, 0], rfl⟩⟩ ∧
      ¬ (⟨⟨[0, 0], rfl⟩⟩ : Permutation 2).Valid ∧
      (Permutation.fromVaList 0 [0] rfl : Except String (Permutation 2))
        = .error "Invalid permutation supplied." ∧
      Permutation.fromPack (⟨[0, 5], rfl⟩ : BArray Nat 2) = .ok ⟨⟨[0, 5], rfl⟩⟩ ∧
      (Permutation.fromVaList 0 [5] rfl : Except String (Permutation 2))
        = .error "Invalid permutation supplied." := by
  decide

end TiledArray

/-! ## Permuted copies: the loop nest of `detail::Permute` -/

namespace TiledArray

namespace detail

theorem foldlM_congr_mem {σ α : Type} (l : List α) (f g : σ → α → Except String σ)
    (h : ∀ a ∈ l, ∀ s, f s a = g s a) (s : σ) : l.foldlM f s = l.foldlM g s := by
  induction l generalizing s with
  | nil => rfl
  | cons a l ih =>
    rw [List.foldlM_cons, List.foldlM_cons, h a (List.mem_cons_self _ _)]
    congr 1
    funext s'
    exact ih (fun b hb => h b (List.mem_cons_of_mem _ hb)) s'

/-- With a positive step the loop of `ForLoop` makes its `r` iterations within
any bound of at least `r`. -/
theorem ForLoop.iterate_eq {σ : Type} (func : Nat → σ → Except String σ) (step_ : Nat)
    (hs : 0 < step_) (r fuel cur : Nat) (st : σ) (hr : r ≤ fuel) :
    ForLoop.iterate func (cur + r * step_) step_ fuel cur st
      = (List.range r).foldlM (fun st j => func (cur + j * step_) st) st := by
  induction r generalizing fuel cur st with
  | zero =>
    cases fuel <;> simp [ForLoop.iterate] <;> rfl
  | succ r ih =>
    cases fuel with
    | zero => omega
    | succ f =>
      have hlt : cur < cur + (r + 1) * step_ := by
        have : 0 < (r + 1) * step_ := Nat.mul_pos (Nat.succ_pos r) hs
        omega
      have hend : cur + (r + 1) * step_ = (cur + step_) + r * step_ := by
        rw [Nat.succ_mul]; omega
      simp only [ForLoop.iterate, hlt, if_true]
      rw [List.range_succ_eq_map, List.foldlM_cons]
      simp only [Nat.zero_mul, Nat.add_zero]
      congr 1
      funext st'
      rw [List.foldlM_map, hend, ih f (cur + step_) st' (by omega)]
      apply foldlM_congr_mem
      intro j _ s
      congr 1
      rw [Nat.succ_mul]; omega

/-- A `ForLoop` whose bound is `c` steps makes `c` calls, at `first`,
`first + s`, ...; with a step of zero the bound is zero and it makes none. -/
theorem ForLoop_eq {σ : Type} (func : Nat → σ → Except String σ) (c s first : Nat) (st : σ)
    (hs : 0 < s ∨ c = 0) :
    ForLoop func (c * s) s first st
      = (List.range c).foldlM (fun st j => func (first + j * s) st) st := by
  unfold ForLoop
  rcases Nat.eq_zero_or_pos s with h0 | hpos
  · have hc : c = 0 := by
      rcases hs with h | h
      · omega
      · exact h
    subst hc
    simp [ForLoop.iterate]
    rfl
  · exact ForLoop.iterate_eq func s hpos c (c * s) first st (Nat.le_mul_of_pos_right c hpos)

theorem foldlM_range_mul {σ : Type} (h : Nat → Nat → σ → Except String σ) (c G : Nat) (st : σ) :
    (List.range (c * G)).foldlM (fun st t => h (t / G) (t % G) st) st
      = (List.range c).foldlM
          (fun st j => (List.range G).foldlM (fun st t => h j t st) st) st := by
  induction c generalizing st with
  | zero => simp
  | succ c ih =>
    rw [Nat.succ_mul, List.range_add, List.foldlM_append, List.range_succ,
      List.foldlM_append, ih]
    congr 1
    funext st'
    rw [List.foldlM_map, List.foldlM_cons]
    simp only [List.foldlM_nil, bind_pure]
    apply foldlM_congr_mem
    intro t ht s
    have htG : t < G := List.mem_range.1 ht
    have hG : 0 < G := by omega
    rw [Nat.mul_comm c G, Nat.mul_add_div hG, Nat.mul_add_mod, Nat.div_eq_of_lt htG,
      Nat.mod_eq_of_lt htG, Nat.add_zero]

theorem NestInv.wrap {σ : Type} {body func : Nat → σ → Except String σ} {G : Nat}
    {φ : Nat → Nat} (hinv : NestInv body func G φ) (c s : Nat) (hs : 0 < s ∨ c = 0) :
    NestInv body (ForLoop func (c * s) s) (c * G) (fun t => (t / G) * s + φ (t % G)) := by
  intro first st
  rw [ForLoop_eq func c s first st hs]
  have := foldlM_range_mul (fun j t st => body (first + j * s + φ t) st) c G st
  simp only [Nat.add_assoc] at this ⊢
  rw [this]
  apply foldlM_congr_mem
  intro j _ s'
  rw [hinv]
  simp only [Nat.add_assoc]

/-- The whole nest: with bounds `c * s` and steps `s` it makes
`loop_count cs G` calls, the `t`-th at offset `loop_offset cs ss G φ t`. -/
theorem NestInv.nest {σ : Type} {body : Nat → σ → Except String σ} (cs ss : List Nat)
    (h : List.Forall₂ (fun c s => 0 < s ∨ c = 0) cs ss) (func : Nat → σ → Except String σ)
    (G : Nat) (φ : Nat → Nat) (hinv : NestInv body func G φ) :
    NestInv body (NestedForLoop cs.length func (List.zipWith (· * ·) cs ss) ss)
      (loop_count cs G) (loop_offset cs ss G φ) := by
  induction h generalizing func G φ with
  | nil => simpa [NestedForLoop, loop_count, loop_offset] using hinv
  | cons hcs _ ih =>
    simp only [List.length_cons, List.zipWith_cons_cons, NestedForLoop, loop_count,
      loop_offset]
    exact ih _ _ _ (hinv.wrap _ _ hcs)

theorem NestInv.body {σ : Type} (body : Nat → σ → Except String σ) :
    NestInv body body 1 (fun _ => 0) := by
  intro first st
  have h1 : List.range 1 = [0] := rfl
  rw [h1, List.foldlM_cons]
  simp only [List.foldlM_nil, bind_pure, Nat.add_zero]

end detail

end TiledArray

namespace TiledArray

namespace detail

theorem loop_count_eq (cs : List Nat) (G : Nat) : loop_count cs G = G * cs.prod := by
  induction cs generalizing G with
  | nil => simp [loop_count]
  | cons c cs ih =>
    simp only [loop_count, List.prod_cons, ih]
    rw [Nat.mul_comm c G, Nat.mul_assoc]

theorem horner_lt {cs js : List Nat} (h : List.Forall₂ (· < ·) js cs) :
    horner cs js < cs.prod := by
  induction h with
  | nil => simp [horner]
  | @cons j c js cs hjc _ ih =>
    simp only [horner, List.prod_cons]
    calc j + c * horner cs js < c + c * horner cs js := by omega
      _ = c * (horner cs js + 1) := by rw [Nat.mul_add, Nat.mul_one, Nat.add_comm]
      _ ≤ c * cs.prod := Nat.mul_le_mul_left c ih

theorem horner_inj {cs js js' : List Nat} (h : List.Forall₂ (· < ·) js cs)
    (h' : List.Forall₂ (· < ·) js' cs) (he : horner cs js = horner cs js') : js = js' := by
  induction h generalizing js' with
  | nil => cases h'; rfl
  | @cons j c js cs hjc _ ih =>
    cases h' with
    | @cons j' _ js' _ hjc' hrest' =>
      simp only [horner] at he
      have hc : 0 < c := by omega
      have h1 : (j + c * horner cs js) % c = (j' + c * horner cs js') % c := by rw [he]
      rw [Nat.add_mul_mod_self_left, Nat.add_mul_mod_self_left, Nat.mod_eq_of_lt hjc,
        Nat.mod_eq_of_lt hjc'] at h1
      have h2 : (j + c * horner cs js) / c = (j' + c * horner cs js') / c := by rw [he]
      rw [Nat.add_mul_div_left _ _ hc, Nat.add_mul_div_left _ _ hc, Nat.div_eq_of_lt hjc,
        Nat.div_eq_of_lt hjc', Nat.zero_add, Nat.zero_add] at h2
      rw [h1, ih hrest' h2]

theorem digits_spec (cs : List Nat) (t : Nat) (ht : t < cs.prod) :
    List.Forall₂ (· < ·) (digits cs t) cs ∧ horner cs (digits cs t) = t := by
  induction cs generalizing t with
  | nil => exact ⟨List.Forall₂.nil, by simp at ht; simp [horner, ht]⟩
  | cons c cs ih =>
    rw [List.prod_cons] at ht
    have hc : 0 < c := by
      rcases Nat.eq_zero_or_pos c with h0 | hpos
      · subst h0; simp at ht
      · exact hpos
    have hdiv : t / c < cs.prod := by
      rw [Nat.div_lt_iff_lt_mul hc, Nat.mul_comm]
      exact ht
    obtain ⟨h1, h2⟩ := ih (t / c) hdiv
    refine ⟨List.Forall₂.cons (Nat.mod_lt t hc) h1, ?_⟩
    simp only [digits, horner, h2]
    exact Nat.mod_add_div t c

/-- The call made at the position with mixed-radix digits `js` is at the
offset that is the sum of the digits times the steps. -/
theorem loop_offset_horner {cs js : List Nat} (h : List.Forall₂ (· < ·) js cs) (ss : List Nat)
    (hss : ss.length = cs.length) (G : Nat) (φ : Nat → Nat) (t0 : Nat) (ht0 : t0 < G) :
    loop_offset cs ss G φ (t0 + G * horner cs js)
      = φ t0 + (List.zipWith (· * ·) js ss).sum := by
  induction h generalizing ss G φ t0 with
  | nil =>
    cases ss with
    | nil => simp [loop_offset, horner]
    | cons s ss => simp at hss
  | @cons j c js cs hjc _ ih =>
    cases ss with
    | nil => simp at hss
    | cons s ss =>
      have hG : 0 < G := by omega
      have hlt : t0 + G * j < c * G := by
        calc t0 + G * j < G + G * j := by omega
          _ = G * (j + 1) := by rw [Nat.mul_add, Nat.mul_one, Nat.add_comm]
          _ ≤ G * c := Nat.mul_le_mul_left G hjc
          _ = c * G := Nat.mul_comm G c
      have harg : t0 + G * horner (c :: cs) (j :: js)
          = (t0 + G * j) + (c * G) * horner cs js := by
        simp only [horner]
        rw [Nat.mul_add, Nat.mul_comm c G, Nat.mul_assoc, Nat.add_assoc]
      simp only [loop_offset, List.zipWith_cons_cons, List.sum_cons]
      rw [harg, ih ss (by simpa using hss) (c * G) _ (t0 + G * j) hlt]
      rw [Nat.add_mul_div_left _ _ hG, Nat.add_mul_mod_self_left, Nat.div_eq_of_lt ht0,
        Nat.mod_eq_of_lt ht0, Nat.zero_add]
      omega

/-- The sum of digits times running products is the running product's start
times the number with these digits. -/
theorem dot_running_products {cs js : List Nat} (h : List.Forall₂ (· < ·) js cs) (w : Nat) :
    (List.zipWith (· * ·) js (running_products w cs)).sum = w * horner cs js := by
  induction h generalizing w with
  | nil => simp [running_products, horner]
  | @cons j c js cs _ _ ih =>
    simp only [running_products, List.zipWith_cons_cons, List.sum_cons, horner, ih]
    rw [Nat.mul_add, Nat.mul_assoc, Nat.mul_comm j w]

end detail

end TiledArray

namespace TiledArray

namespace detail

/-- A run of `AssignmentOp` over a list of offsets within the output stores the
input elements at them in turn, as `permute` does. -/
theorem assign_fold {T : Type} (os : List Nat) (inp out : List T) (log : List Nat)
    (hos : ∀ o ∈ os, o < out.length) (hlen : os.length ≤ inp.length) :
    os.foldlM (fun st o => AssignmentOp o st) (⟨inp, out, log⟩ : PermuteState T)
      = .ok ⟨inp.drop os.length, permute os inp out, log ++ os⟩ := by
  induction os generalizing inp out log with
  | nil => simp [permute]; rfl
  | cons o os ih =>
    cases inp with
    | nil => simp at hlen
    | cons x rest =>
      have ho : o < out.length := hos o (List.mem_cons_self _ _)
      rw [List.foldlM_cons]
      have h1 : AssignmentOp o (⟨x :: rest, out, log⟩ : PermuteState T)
          = .ok ⟨rest, out.set o x, log ++ [o]⟩ := by
        simp [AssignmentOp, ho]
      rw [h1]
      show List.foldlM _ _ os = _
      rw [ih rest (out.set o x) (log ++ [o])
        (fun y hy => by rw [List.length_set]; exact hos y (List.mem_cons_of_mem _ hy))
        (by simpa using hlen)]
      simp [permute]

end detail

theorem IsPermList.perm_range {DIM : Nat} {p : List Nat} (h : IsPermList DIM p) :
    p.Perm (List.range DIM) := by
  obtain ⟨hlen, hlt, hnd⟩ := h
  have hsub : p ⊆ List.range DIM := fun x hx => List.mem_range.2 (hlt x hx)
  exact (List.subperm_of_subset hnd hsub).perm_of_length_le (by simp [hlen])

theorem list_eq_map_range (l : List Nat) :
    l = (List.range l.length).map (fun k => l.getD k 0) := by
  apply List.ext_getElem (by simp)
  intro n h1 _
  simp [List.getD_eq_getElem?_getD, List.getElem?_eq_getElem h1]

theorem zipWith_same {α β : Type} (f : α → α → β) (l : List α) :
    List.zipWith f l l = l.map (fun x => f x x) := by
  induction l with
  | nil => rfl
  | cons a l ih => simp [ih]

/-- The original, read off the permuted list along the permutation. -/
theorem IsPermList.eq_map_permute {DIM : Nat} {p : List Nat} (hp : IsPermList DIM p)
    (a u : List Nat) (ha : a.length = DIM) (hu : u.length = DIM) :
    a = p.map (fun k => (detail.permute p a u).getD k 0) := by
  apply List.ext_getElem?
  intro i
  rw [List.getElem?_map]
  by_cases hi : i < DIM
  · have hip : i < p.length := by rw [hp.1]; exact hi
    have hk := List.getElem?_eq_getElem hip
    have := hp.permute_get a u ha hu hk
    rw [hk, Option.map_some', List.getD_eq_getElem?_getD, this,
      List.getElem?_eq_getElem (by omega : i < a.length)]
    rfl
  · rw [List.getElem?_eq_none (by omega), List.getElem?_eq_none (by rw [hp.1]; omega)]
    rfl

/-- Permuting a list of numbers rearranges it. -/
theorem IsPermList.permute_perm {DIM : Nat} {p : List Nat} (hp : IsPermList DIM p)
    (a u : List Nat) (ha : a.length = DIM) (hu : u.length = DIM) :
    (detail.permute p a u).Perm a := by
  have h1 := hp.eq_map_permute a u ha hu
  have h2 := list_eq_map_range (detail.permute p a u)
  rw [detail.permute_length, hu] at h2
  have h3 := hp.perm_range.map (fun k => (detail.permute p a u).getD k 0)
  rw [← h1, ← h2] at h3
  exact h3.symm

/-- The sum of products of two lists is unchanged when both are permuted. -/
theorem IsPermList.dot_permute {DIM : Nat} {p : List Nat} (hp : IsPermList DIM p)
    (a b ua ub : List Nat) (ha : a.length = DIM) (hb : b.length = DIM)
    (hua : ua.length = DIM) (hub : ub.length = DIM) :
    (List.zipWith (· * ·) (detail.permute p a ua) (detail.permute p b ub)).sum
      = (List.zipWith (· * ·) a b).sum := by
  have h1 : List.zipWith (· * ·) a b
      = p.map (fun k => (detail.permute p a ua).getD k 0 * (detail.permute p b ub).getD k 0) := by
    conv_lhs => rw [hp.eq_map_permute a ua ha hua, hp.eq_map_permute b ub hb hub]
    rw [List.zipWith_map, zipWith_same]
  have h2 : List.zipWith (· * ·) (detail.permute p a ua) (detail.permute p b ub)
      = (List.range DIM).map
        (fun k => (detail.permute p a ua).getD k 0 * (detail.permute p b ub).getD k 0) := by
    have e1 := list_eq_map_range (detail.permute p a ua)
    have e2 := list_eq_map_range (detail.permute p b ub)
    rw [detail.permute_length, hua] at e1
    rw [detail.permute_length, hub] at e2
    conv_lhs => rw [e1, e2]
    rw [List.zipWith_map, zipWith_same]
  rw [h1, h2]
  exact (hp.perm_range.map _).sum_eq.symm

/-- Permuting is injective in the permuted list. -/
theorem IsPermList.permute_inj {DIM : Nat} {p : List Nat} (hp : IsPermList DIM p)
    (a b ua ub : List Nat) (ha : a.length = DIM) (hb : b.length = DIM)
    (hua : ua.length = DIM) (hub : ub.length = DIM)
    (h : detail.permute p a ua = detail.permute p b ub) : a = b := by
  rw [hp.eq_map_permute a ua ha hua, hp.eq_map_permute b ub hb hub, h]

theorem forall₂_lt_iff (a b : List Nat) :
    List.Forall₂ (· < ·) a b ↔
      a.length = b.length ∧ ∀ k x y : Nat, a[k]? = some x → b[k]? = some y → x < y := by
  rw [List.forall₂_iff_get]
  constructor
  · rintro ⟨hl, h⟩
    refine ⟨hl, ?_⟩
    intro k x y hx hy
    obtain ⟨h1, rfl⟩ := List.getElem?_eq_some.1 hx
    obtain ⟨h2, rfl⟩ := List.getElem?_eq_some.1 hy
    exact h k h1 h2
  · rintro ⟨hl, h⟩
    refine ⟨hl, ?_⟩
    intro i h1 h2
    exact h i _ _ (List.getElem?_eq_getElem h1) (List.getElem?_eq_getElem h2)

/-- An index within the extents stays within the permuted extents when
permuted. -/
theorem IsPermList.forall₂_permute {DIM : Nat} {p : List Nat} (hp : IsPermList DIM p)
    (idx n u1 u2 : List Nat) (hn : n.length = DIM) (hu1 : u1.length = DIM)
    (hu2 : u2.length = DIM) (h : List.Forall₂ (· < ·) idx n) :
    List.Forall₂ (· < ·) (detail.permute p idx u1) (detail.permute p n u2) := by
  have hidx : idx.length = DIM := h.length_eq.trans hn
  rw [forall₂_lt_iff] at h ⊢
  refine ⟨by rw [detail.permute_length, detail.permute_length, hu1, hu2], ?_⟩
  intro k x y hx hy
  have hk : k < DIM := by
    obtain ⟨hh, _⟩ := List.getElem?_eq_some.1 hx
    rw [detail.permute_length, hu1] at hh; exact hh
  obtain ⟨i, _, hi⟩ := hp.exists_index hk
  rw [hp.permute_get idx u1 hidx hu1 hi] at hx
  rw [hp.permute_get n u2 hn hu2 hi] at hy
  exact h.2 i x y hx hy

/-- The steps of the loop nest, permuted back, are the weights of the permuted
layout. -/
theorem IsPermList.permute_step {DIM : Nat} {p : List Nat} (hp : IsPermList DIM p)
    (w u u_ip u_step : List Nat) (hw : w.length = DIM) (hu : u.length = DIM)
    (hip : u_ip.length = DIM) (hst : u_step.length = DIM) :
    detail.permute p
      (detail.permute (detail.permute p (List.range DIM) u_ip) w u_step) u = w := by
  have hQ := hp.permute (IsPermList.range DIM) u_ip hip
  apply hp.ext_at _ _ (by rw [detail.permute_length, hu]) hw
  intro i k hk
  have hqk : (detail.permute p (List.range DIM) u_ip)[k]? = some i := by
    rw [hp.permute_get _ u_ip (List.length_range DIM) hip hk]
    apply List.getElem?_range
    obtain ⟨hh, _⟩ := List.getElem?_eq_some.1 hk
    rw [hp.1] at hh; exact hh
  rw [hp.permute_get _ u (by rw [detail.permute_length, hst]) hu hk,
    hQ.permute_get w u_step hw hst hqk]

end TiledArray

namespace TiledArray

namespace detail

theorem orient_length (order : DimensionOrderType) (l : List Nat) :
    (orient order l).length = l.length := by
  cases order <;> simp [orient]

theorem orient_orient (order : DimensionOrderType) (l : List Nat) :
    orient order (orient order l) = l := by
  cases order <;> simp [orient]

theorem orient_prod (order : DimensionOrderType) (l : List Nat) :
    (orient order l).prod = l.prod := by
  cases order <;> simp [orient, List.prod_reverse]

theorem orient_zipWith (order : DimensionOrderType) (f : Nat → Nat → Nat) (a b : List Nat)
    (h : a.length = b.length) :
    List.zipWith f (orient order a) (orient order b) = orient order (List.zipWith f a b) := by
  cases order
  · simp only [orient]
    exact (List.reverse_zipWith h).symm
  · rfl

theorem orient_dot (order : DimensionOrderType) (a b : List Nat) (h : a.length = b.length) :
    (List.zipWith (· * ·) (orient order a) (orient order b)).sum
      = (List.zipWith (· * ·) a b).sum := by
  rw [orient_zipWith order _ a b h]
  cases order <;> simp [orient, List.sum_reverse]

theorem forall₂_orient (order : DimensionOrderType) (a b : List Nat) :
    List.Forall₂ (· < ·) (orient order a) (orient order b) ↔ List.Forall₂ (· < ·) a b := by
  cases order
  · exact List.forall₂_reverse_iff
  · exact Iff.rfl

/-- The ordinal of an index within the extents is the number whose
mixed-radix digits, least significant first, are the index entries. -/
theorem ordinal_list_eq_horner (order : DimensionOrderType) (size idx : List Nat)
    (h : List.Forall₂ (· < ·) idx size) :
    ordinal_list order size idx = horner (orient order size) (orient order idx) := by
  cases order
  · simp only [ordinal_list, calc_weight_list, orient]
    have hl : idx.reverse.length = (running_products 1 size.reverse).length := by
      rw [running_products_length, List.length_reverse, List.length_reverse, h.length_eq]
    have := List.reverse_zipWith (f := (· * ·)) hl
    rw [List.reverse_reverse] at this
    rw [← this, List.sum_reverse, dot_running_products (List.forall₂_reverse_iff.2 h) 1,
      Nat.one_mul]
  · simp only [ordinal_list, calc_weight_list, orient]
    rw [dot_running_products h 1, Nat.one_mul]

theorem eff_counts_length (cs ss : List Nat) (h : cs.length = ss.length) :
    (eff_counts cs ss).length = cs.length := by
  simp [eff_counts, h]

theorem eff_counts_zip (cs ss : List Nat) :
    List.zipWith (· * ·) (eff_counts cs ss) ss = List.zipWith (· * ·) cs ss := by
  induction cs generalizing ss with
  | nil => simp [eff_counts]
  | cons c cs ih =>
    cases ss with
    | nil => simp [eff_counts]
    | cons s ss =>
      have := ih ss
      simp only [eff_counts] at this ⊢
      simp only [List.zipWith_cons_cons, this]
      congr 1
      by_cases hs : s = 0
      · simp [hs]
      · simp [hs]

theorem eff_counts_forall₂ (cs ss : List Nat) (h : cs.length = ss.length) :
    List.Forall₂ (fun c s => 0 < s ∨ c = 0) (eff_counts cs ss) ss := by
  induction cs generalizing ss with
  | nil =>
    cases ss with
    | nil => exact List.Forall₂.nil
    | cons s ss => simp at h
  | cons c cs ih =>
    cases ss with
    | nil => simp at h
    | cons s ss =>
      have := ih ss (by simpa using h)
      simp only [eff_counts] at this ⊢
      simp only [List.zipWith_cons_cons]
      refine List.Forall₂.cons ?_ this
      by_cases hs : s = 0
      · right; simp [hs]
      · left; omega

theorem eff_counts_eq_self (cs ss : List Nat) (h : cs.length = ss.length)
    (hpos : ∀ s ∈ ss, 0 < s) : eff_counts cs ss = cs := by
  induction cs generalizing ss with
  | nil => simp [eff_counts]
  | cons c cs ih =>
    cases ss with
    | nil => simp at h
    | cons s ss =>
      have := ih ss (by simpa using h) (fun x hx => hpos x (List.mem_cons_of_mem _ hx))
      simp only [eff_counts] at this ⊢
      have hs : s ≠ 0 := by
        have := hpos s (List.mem_cons_self _ _)
        omega
      simp only [List.zipWith_cons_cons, this, hs, if_false]

theorem eff_counts_prod_zero (cs ss : List Nat) (h : cs.length = ss.length)
    (h0 : cs.prod = 0) : (eff_counts cs ss).prod = 0 := by
  induction cs generalizing ss with
  | nil => simp at h0
  | cons c cs ih =>
    cases ss with
    | nil => simp at h
    | cons s ss =>
      simp only [eff_counts, List.zipWith_cons_cons, List.prod_cons]
      rw [List.prod_cons] at h0
      rcases Nat.mul_eq_zero.1 h0 with hc | hcs
      · simp [hc]
      · have := ih ss (by simpa using h) hcs
        simp only [eff_counts] at this
        rw [this, Nat.mul_zero]

theorem running_products_pos (w : Nat) (cs : List Nat) (hw : 0 < w) (hcs : ∀ c ∈ cs, 0 < c) :
    ∀ x ∈ running_products w cs, 0 < x := by
  induction cs generalizing w with
  | nil => simp [running_products]
  | cons c cs ih =>
    intro x hx
    simp only [running_products, List.mem_cons] at hx
    rcases hx with rfl | hx
    · exact hw
    · exact ih (w * c) (Nat.mul_pos hw (hcs c (List.mem_cons_self _ _)))
        (fun y hy => hcs y (List.mem_cons_of_mem _ hy)) x hx

theorem calc_weight_list_pos (order : DimensionOrderType) (size : List Nat)
    (h : ∀ c ∈ size, 0 < c) : ∀ x ∈ calc_weight_list order size, 0 < x := by
  cases order
  · intro x hx
    simp only [calc_weight_list, List.mem_reverse] at hx
    exact running_products_pos 1 _ Nat.one_pos (fun c hc => h c (List.mem_reverse.1 hc)) x hx
  · exact running_products_pos 1 _ Nat.one_pos h

theorem pos_of_prod_pos (l : List Nat) (h : 0 < l.prod) : ∀ c ∈ l, 0 < c := by
  intro c hc
  rcases Nat.eq_zero_or_pos c with h0 | hpos
  · subst h0
    have := List.prod_eq_zero_iff.2 hc
    omega
  · exact hpos

end detail

end TiledArray

namespace TiledArray

/-- For a permutation list the permuted list does not depend on what the result
held before. -/
theorem IsPermList.permute_indep {α : Type} {DIM : Nat} {p : List Nat} (hp : IsPermList DIM p)
    (a u u' : List α) (ha : a.length = DIM) (hu : u.length = DIM) (hu' : u'.length = DIM) :
    detail.permute p a u = detail.permute p a u' := by
  apply hp.ext_at _ _ (by rw [detail.permute_length, hu]) (by rw [detail.permute_length, hu'])
  intro i k hk
  rw [hp.permute_get a u ha hu hk, hp.permute_get a u' ha hu' hk]

namespace detail

theorem mem_orient (order : DimensionOrderType) (l : List Nat) (x : Nat) :
    x ∈ orient order l ↔ x ∈ l := by
  cases order <;> simp [orient]

/-- The loop nest of `Permute` on lists: it ends without error, having stored
the input elements in turn at the offsets `os`; these are each position of the
output once, and the offset used for the element with ordinal `ord idx` is the
ordinal of the permuted index in the permuted layout. -/
theorem permute_nest (order : DimensionOrderType) (D : Nat) (P n : List Nat) {T : Type}
    (inp out : List T) (u_size u_step u_ip : List Nat) (hP : IsPermList D P)
    (hn : n.length = D) (hus : u_size.length = D) (hust : u_step.length = D)
    (huip : u_ip.length = D) (hin : inp.length = n.prod) (hout : out.length = n.prod) :
    ∃ os : List Nat,
      NestedForLoop D AssignmentOp
          (orient order (List.zipWith (· * ·) n
            (permute (permute P (List.range D) u_ip)
              (calc_weight_list order (permute P n u_size)) u_step)))
          (orient order
            (permute (permute P (List.range D) u_ip)
              (calc_weight_list order (permute P n u_size)) u_step))
          0 (⟨inp, out, []⟩ : PermuteState T)
        = .ok ⟨[], permute os inp out, os⟩ ∧
      IsPermList n.prod os ∧
      ∀ idx u, List.Forall₂ (· < ·) idx n → u.length = D →
        ordinal_list order n idx < n.prod ∧
        os[ordinal_list order n idx]?
          = some (ordinal_list order (permute P n u_size) (permute P idx u)) := by
  have hQperm := hP.permute (IsPermList.range D) u_ip huip
  have hn'len : (permute P n u_size).length = D := by rw [permute_length, hus]
  have hw'len : (calc_weight_list order (permute P n u_size)).length = D := by
    rw [calc_weight_list_length, hn'len]
  have hn'prod : (permute P n u_size).prod = n.prod :=
    (hP.permute_perm n u_size hn hus).prod_eq
  have hstepeq := hP.permute_step (calc_weight_list order (permute P n u_size)) u_size u_ip
    u_step hw'len hus huip hust
  generalize hn' : permute P n u_size = n' at *
  generalize hw' : calc_weight_list order n' = w' at *
  generalize hQ : permute P (List.range D) u_ip = Q at *
  have hsperm := hQperm.permute_perm w' u_step hw'len hust
  have hslen : (permute Q w' u_step).length = D := by rw [permute_length, hust]
  generalize hs : permute Q w' u_step = s at *
  have hstep : ∀ idx u, idx.length = D → u.length = D →
      (List.zipWith (· * ·) idx s).sum = ordinal_list order n' (permute P idx u) := by
    intro idx u hidx hu
    have := hP.dot_permute idx s u u_size hidx hslen hu hus
    rw [hstepeq] at this
    unfold ordinal_list
    rw [hw']
    exact this.symm
  have hmlen : (orient order n).length = D := by rw [orient_length, hn]
  have hσlen : (orient order s).length = D := by rw [orient_length, hslen]
  have hcslen : (eff_counts (orient order n) (orient order s)).length = D := by
    rw [eff_counts_length _ _ (hmlen.trans hσlen.symm), hmlen]
  have hzip : List.zipWith (· * ·) (eff_counts (orient order n) (orient order s))
      (orient order s) = orient order (List.zipWith (· * ·) n s) := by
    rw [eff_counts_zip, orient_zipWith order _ n s (by rw [hn, hslen])]
  have hnest := NestInv.nest (eff_counts (orient order n) (orient order s)) (orient order s)
    (eff_counts_forall₂ _ _ (hmlen.trans hσlen.symm)) (AssignmentOp (T := T)) 1 (fun _ => 0)
    (NestInv.body _)
  rw [hcslen, hzip, loop_count_eq, Nat.one_mul] at hnest
  rcases Nat.eq_zero_or_pos n.prod with hV0 | hVpos
  · have hcs0 : (eff_counts (orient order n) (orient order s)).prod = 0 :=
      eff_counts_prod_zero _ _ (hmlen.trans hσlen.symm) (by rw [orient_prod]; exact hV0)
    have hinp : inp = [] := List.length_eq_zero.1 (hin.trans hV0)
    refine ⟨[], ?_, ?_, ?_⟩
    · rw [hnest 0 _, hcs0, hinp]
      rfl
    · rw [hV0]
      exact ⟨rfl, by simp, List.nodup_nil⟩
    · intro idx u hbox _
      have := horner_lt ((forall₂_orient order idx n).2 hbox)
      rw [orient_prod, hV0] at this
      omega
  · have hn'pos := pos_of_prod_pos n' (hn'prod ▸ hVpos)
    have hw'pos : ∀ x ∈ w', 0 < x := hw' ▸ calc_weight_list_pos order n' hn'pos
    have hspos : ∀ x ∈ s, 0 < x := fun x hx => hw'pos x (hsperm.mem_iff.1 hx)
    have hσpos : ∀ x ∈ orient order s, 0 < x :=
      fun x hx => hspos x ((mem_orient order s x).1 hx)
    have hcs : eff_counts (orient order n) (orient order s) = orient order n :=
      eff_counts_eq_self _ _ (hmlen.trans hσlen.symm) hσpos
    rw [hcs, orient_prod] at hnest
    generalize hΦdef : loop_offset (orient order n) (orient order s) 1 (fun _ => 0) = Φ at *
    have hΦ : ∀ js, List.Forall₂ (· < ·) js (orient order n) →
        Φ (horner (orient order n) js) = (List.zipWith (· * ·) js (orient order s)).sum := by
      intro js hjs
      have := loop_offset_horner hjs (orient order s) (hσlen.trans hmlen.symm) 1
        (fun _ => 0) 0 Nat.one_pos
      rw [hΦdef] at this
      simpa using this
    have hK : ∀ idx u, List.Forall₂ (· < ·) idx n → u.length = D →
        Φ (ordinal_list order n idx) = ordinal_list order n' (permute P idx u) := by
      intro idx u hbox hu
      have hidx : idx.length = D := hbox.length_eq.trans hn
      rw [ordinal_list_eq_horner order n idx hbox,
        hΦ _ ((forall₂_orient order idx n).2 hbox),
        orient_dot order idx s (by rw [hidx, hslen])]
      exact hstep idx u hidx hu
    have hord_lt : ∀ idx, List.Forall₂ (· < ·) idx n → ordinal_list order n idx < n.prod := by
      intro idx hbox
      rw [ordinal_list_eq_horner order n idx hbox, ← orient_prod order n]
      exact horner_lt ((forall₂_orient order idx n).2 hbox)
    have hdig : ∀ t, t < n.prod →
        ∃ idx, List.Forall₂ (· < ·) idx n ∧ ordinal_list order n idx = t := by
      intro t ht
      obtain ⟨h1, h2⟩ := digits_spec (orient order n) t (by rw [orient_prod]; exact ht)
      have hbox : List.Forall₂ (· < ·) (orient order (digits (orient order n) t)) n := by
        rw [← forall₂_orient order, orient_orient]
        exact h1
      refine ⟨_, hbox, ?_⟩
      rw [ordinal_list_eq_horner order n _ hbox, orient_orient]
      exact h2
    have hbox' : ∀ idx, List.Forall₂ (· < ·) idx n →
        List.Forall₂ (· < ·) (orient order (permute P idx u_size)) (orient order n') := by
      intro idx hbox
      rw [forall₂_orient, ← hn']
      exact hP.forall₂_permute idx n u_size u_size hn hus hus hbox
    have hbound : ∀ t, t < n.prod → Φ t < n.prod := by
      intro t ht
      obtain ⟨idx, hbox, rfl⟩ := hdig t ht
      rw [hK idx u_size hbox hus,
        ordinal_list_eq_horner order n' _ ((forall₂_orient order _ _).1 (hbox' idx hbox)),
        ← hn'prod, ← orient_prod order n']
      exact horner_lt (hbox' idx hbox)
    have hinj : ∀ t1 ∈ List.range n.prod, ∀ t2 ∈ List.range n.prod, Φ t1 = Φ t2 → t1 = t2 := by
      intro t1 h1 t2 h2 he
      obtain ⟨i1, hb1, rfl⟩ := hdig t1 (List.mem_range.1 h1)
      obtain ⟨i2, hb2, rfl⟩ := hdig t2 (List.mem_range.1 h2)
      rw [hK i1 u_size hb1 hus, hK i2 u_size hb2 hus,
        ordinal_list_eq_horner order n' _ ((forall₂_orient order _ _).1 (hbox' i1 hb1)),
        ordinal_list_eq_horner order n' _ ((forall₂_orient order _ _).1 (hbox' i2 hb2))] at he
      have h3 := congrArg (orient order) (horner_inj (hbox' i1 hb1) (hbox' i2 hb2) he)
      rw [orient_orient, orient_orient] at h3
      rw [hP.permute_inj i1 i2 u_size u_size (hb1.length_eq.trans hn) (hb2.length_eq.trans hn)
        hus hus h3]
    refine ⟨(List.range n.prod).map Φ, ?_, ?_, ?_⟩
    · rw [hnest 0 _]
      have hfold : (List.range n.prod).foldlM (fun st t => AssignmentOp (0 + Φ t) st)
            (⟨inp, out, []⟩ : PermuteState T)
          = ((List.range n.prod).map Φ).foldlM (fun st o => AssignmentOp o st)
            ⟨inp, out, []⟩ := by
        rw [List.foldlM_map]
        simp only [Nat.zero_add]
      rw [hfold, assign_fold _ inp out []
        (fun o ho => by
          obtain ⟨t, ht, rfl⟩ := List.mem_map.1 ho
          rw [hout]
          exact hbound t (List.mem_range.1 ht))
        (by simp [hin])]
      simp [hin]
    · refine ⟨by simp, ?_, (List.nodup_range _).map_on hinj⟩
      intro x hx
      obtain ⟨t, ht, rfl⟩ := List.mem_map.1 hx
      exact hbound t (List.mem_range.1 ht)
    · intro idx u hbox hu
      refine ⟨hord_lt idx hbox, ?_⟩
      rw [List.getElem?_map, List.getElem?_range (hord_lt idx hbox), Option.map_some',
        hK idx u hbox hu]

end detail

end TiledArray

namespace TiledArray

theorem detail.Permute_eq {T : Type} {DIM : Nat} (order : DimensionOrderType)
    (range_ : NRange DIM) (p : Permutation DIM) (hp : p.Valid) (out inp : List T)
    (hout : out.length = range_.volume) (hin : inp.length = range_.volume)
    (u_size u_step u_ip : BArray Nat DIM) :
    detail.Permute order range_ p out inp u_size u_step u_ip
      = detail.NestedForLoop DIM detail.AssignmentOp
          (detail.orient order (List.zipWith (· * ·) range_.size.elems
            (detail.permute (detail.permute p.p_.elems (List.range DIM) u_ip.elems)
              (calc_weight_list order (detail.permute p.p_.elems range_.size.elems u_size.elems))
              u_step.elems)))
          (detail.orient order
            (detail.permute (detail.permute p.p_.elems (List.range DIM) u_ip.elems)
              (calc_weight_list order (detail.permute p.p_.elems range_.size.elems u_size.elems))
              u_step.elems))
          0 ⟨inp, out, []⟩ := by
  obtain ⟨hneg, _, _⟩ := p.neg_eq hp u_ip
  have h1 : (out.length == range_.volume) = true := by rw [hout]; exact beq_self_eq_true _
  have h2 : (inp.length == range_.volume) = true := by rw [hin]; exact beq_self_eq_true _
  unfold detail.Permute
  rw [h1, h2, hneg]
  cases order <;> rfl

/-- C8: for a range with extents `n` and a valid permutation `p`, the call of
`detail::Permute` on input and output data of the range's volume ends without
error; afterwards, for every multi-index `idx` within the extents,
`out[ord'(p ^ idx)] = in[ord(idx)]`, where `ord` is the ordinal in the extents
`n` and `ord'` the ordinal in the permuted extents `p ^ n`, both in the storage
order of the coordinate system; the whole input is consumed and every output
position is stored to exactly once. -/
theorem C8_permute_reindexes {T : Type} {DIM : Nat} (order : DimensionOrderType)
    (range_ : NRange DIM) (p : Permutation DIM) (hp : p.Valid) (out inp : List T)
    (hout : out.length = range_.volume) (hin : inp.length = range_.volume)
    (u_size u_step u_ip : BArray Nat DIM) :
    ∃ st, detail.Permute order range_ p out inp u_size u_step u_ip = .ok st ∧
      st.current_ = [] ∧ st.out.length = range_.volume ∧
      st.stores.Perm (List.range range_.volume) ∧
      ∀ idx u1 u2 : BArray Nat DIM, (∀ i : Fin DIM, idx.get i < range_.size.get i) →
        ordinal order range_.size idx < range_.volume ∧
        st.out[ordinal order (xor_array p range_.size u1) (xor_array p idx u2)]?
          = inp[ordinal order range_.size idx]? := by
  have hP := hp.isPermList
  obtain ⟨os, hrun, hperm, hidx⟩ := detail.permute_nest order DIM p.p_.elems range_.size.elems
    inp out u_size.elems u_step.elems u_ip.elems hP range_.size.size_eq u_size.size_eq
    u_step.size_eq u_ip.size_eq hin hout
  refine ⟨_, (detail.Permute_eq order range_ p hp out inp hout hin u_size u_step u_ip).trans hrun,
    rfl, ?_, hperm.perm_range, ?_⟩
  · show (detail.permute os inp out).length = _
    rw [detail.permute_length, hout]
  · intro idx u1 u2 hbox
    have hbox' : List.Forall₂ (· < ·) idx.elems range_.size.elems := by
      rw [List.forall₂_iff_get]
      refine ⟨idx.size_eq.trans range_.size.size_eq.symm, ?_⟩
      intro i h1 _
      exact hbox ⟨i, idx.size_eq ▸ h1⟩
    obtain ⟨hlt, hos⟩ := hidx idx.elems u2.elems hbox' u2.size_eq
    refine ⟨hlt, ?_⟩
    have hind := hP.permute_indep range_.size.elems u1.elems u_size.elems range_.size.size_eq
      u1.size_eq u_size.size_eq
    show (detail.permute os inp out)[ordinal_list order
        (detail.permute p.p_.elems range_.size.elems u1.elems)
        (detail.permute p.p_.elems idx.elems u2.elems)]? = _
    rw [hind]
    exact hperm.permute_get inp out hin hout hos

theorem C8_permute_reindexes_witness :
    ∃ st, detail.Permute .decreasing_dimension_order ex_extents ex_transpose
        [0, 0, 0, 0, 0, 0] [10, 11, 12, 13, 14, 15] ⟨[7, 7], rfl⟩ ⟨[7, 7], rfl⟩ ⟨[7, 7], rfl⟩
          = .ok st ∧
      st.current_ = [] ∧ st.out.length = ex_extents.volume ∧
      st.stores.Perm (List.range ex_extents.volume) ∧
      ∀ idx u1 u2 : BArray Nat 2, (∀ i : Fin 2, idx.get i < ex_extents.size.get i) →
        ordinal .decreasing_dimension_order ex_extents.size idx < ex_extents.volume ∧
        st.out[ordinal .decreasing_dimension_order (xor_array ex_transpose ex_extents.size u1)
            (xor_array ex_transpose idx u2)]?
          = [10, 11, 12, 13, 14, 15][ordinal .decreasing_dimension_order ex_extents.size idx]? :=
  C8_permute_reindexes .decreasing_dimension_order ex_extents ex_transpose (by decide)
    [0, 0, 0, 0, 0, 0] [10, 11, 12, 13, 14, 15] (by decide) (by decide) ⟨[7, 7], rfl⟩
    ⟨[7, 7], rfl⟩ ⟨[7, 7], rfl⟩

end TiledArray

/-! ## One-dimensional tile ranges (`src/range.h`) -/

namespace Range

theorem range_valid_loop_iff (previous : Nat) (l : List Nat) :
    valid_loop previous l = true ↔ List.Chain (· < ·) previous l := by
  induction l generalizing previous with
  | nil => simp [valid_loop]
  | cons x rest ih =>
    simp only [valid_loop, List.chain_cons]
    by_cases h : x ≤ previous
    · simp only [h, if_true]
      constructor
      · intro hf; cases hf
      · intro hf; omega
    · simp only [h, if_false]
      rw [ih]
      constructor
      · intro hc; exact ⟨by omega, hc⟩
      · intro hc; exact hc.2

theorem range_valid_iff (r : Range) :
    r.valid = true ↔ 2 ≤ r.m_ranges.length ∧ r.m_ranges.Sorted (· < ·) := by
  unfold valid
  by_cases h : r.m_ranges.length < 2
  · simp only [h, if_true]
    constructor
    · intro hf; cases hf
    · intro hf; omega
  · simp only [h, if_false]
    cases hl : r.m_ranges with
    | nil => rw [hl] at h; simp at h
    | cons b0 rest =>
      simp only
      rw [range_valid_loop_iff, List.chain_iff_pairwise, List.Sorted, List.pairwise_cons]
      rw [hl] at h
      constructor
      · intro hc; exact ⟨by omega, hc⟩
      · intro hc; exact hc.2

theorem fromVector_eq (ranges : List Nat) :
    fromVector ranges =
      if (⟨ranges⟩ : Range).valid = true then .ok ⟨ranges⟩
      else .error "Assertion failed: this->valid()" := by
  unfold fromVector c_assert
  by_cases h : (⟨ranges⟩ : Range).valid = true
  · simp only [h, if_true]; rfl
  · simp only [h]; rfl

theorem fromPointer_eq (ranges : List Nat) (tiles : Nat) (h : tiles + 1 ≤ ranges.length) :
    fromPointer ranges tiles h =
      if (⟨ranges.take (tiles + 1)⟩ : Range).valid = true then .ok ⟨ranges.take (tiles + 1)⟩
      else .error "Assertion failed: this->valid()" := by
  unfold fromPointer c_assert
  by_cases hv : (⟨ranges.take (tiles + 1)⟩ : Range).valid = true
  · simp only [hv, if_true]; rfl
  · simp only [hv]; rfl

end Range

/-- C9: constructing a `Range` from a boundary vector passes the assertion
`this->valid()` exactly when the vector has at least two boundaries and the
boundaries are strictly increasing; otherwise the assertion fails. The
constructor from a C array of `tiles + 1` boundaries behaves alike. -/
theorem C9_range_construction (ranges : List Nat) (tiles : Nat)
    (h : tiles + 1 ≤ ranges.length) :
    (Range.fromVector ranges =
      if 2 ≤ ranges.length ∧ ranges.Sorted (· < ·) then .ok ⟨ranges⟩
      else .error "Assertion failed: this->valid()") ∧
    (Range.fromPointer ranges tiles h =
      if 2 ≤ (ranges.take (tiles + 1)).length ∧ (ranges.take (tiles + 1)).Sorted (· < ·) then
        .ok ⟨ranges.take (tiles + 1)⟩
      else .error "Assertion failed: this->valid()") := by
  refine ⟨?_, ?_⟩
  · rw [Range.fromVector_eq]
    simp only [Range.range_valid_iff]
  · rw [Range.fromPointer_eq]
    simp only [Range.range_valid_iff]

theorem C9_range_construction_witness :
    (Range.fromVector ex_bounds =
      if 2 ≤ ex_bounds.length ∧ ex_bounds.Sorted (· < ·) then .ok ⟨ex_bounds⟩
      else .error "Assertion failed: this->valid()") ∧
    (Range.fromPointer ex_bounds 2 (by decide) =
      if 2 ≤ (ex_bounds.take (2 + 1)).length ∧ (ex_bounds.take (2 + 1)).Sorted (· < ·) then
        .ok ⟨ex_bounds.take (2 + 1)⟩
      else .error "Assertion failed: this->valid()") :=
  C9_range_construction ex_bounds 2 (by decide)

namespace Range

theorem at__eq (r : Range) {i : Nat} (hi : i < r.m_ranges.length) :
    r.at_ i = .ok (r.m_ranges.getD i 0) := by
  unfold at_
  rw [List.getD_eq_getElem?_getD, List.getElem?_eq_getElem hi]
  rfl

theorem size_minus_one_eq (r : Range) (h : 2 ≤ r.m_ranges.length) :
    r.size_minus_one = r.m_ranges.length - 1 := by
  unfold size_minus_one
  rw [if_neg (by omega)]

theorem get_tile_eq (r : Range) (h : 2 ≤ r.m_ranges.length) {t : Nat}
    (ht : t < r.tile_count) :
    r.get_tile t = .ok (r.m_ranges.getD t 0, r.m_ranges.getD (t + 1) 0) := by
  have hs := r.size_minus_one_eq h
  unfold tile_count at ht
  unfold get_tile c_assert
  rw [r.at__eq (by omega : t < r.m_ranges.length),
    r.at__eq (by omega : t + 1 < r.m_ranges.length)]
  simp only [ht, decide_True, if_true]
  rfl

/-- Some pair of neighbouring boundaries encloses an element lying between the
first and the last boundary. -/
theorem exists_enclosing (l : List Nat) (hlen : 2 ≤ l.length) (e : Nat)
    (h0 : l.getD 0 0 ≤ e) (hlast : e < l.getD (l.length - 1) 0) :
    ∃ t, t + 1 < l.length ∧ l.getD t 0 ≤ e ∧ e < l.getD (t + 1) 0 := by
  induction l with
  | nil => simp at hlen
  | cons a tl ih =>
    cases tl with
    | nil => simp at hlen
    | cons b rest =>
      by_cases hb : e < b
      · exact ⟨0, by simp, by simpa using h0, by simpa using hb⟩
      · cases rest with
        | nil =>
          exfalso
          simp at hlast
          omega
        | cons c rest' =>
          have hlast' : e < (b :: c :: rest').getD ((b :: c :: rest').length - 1) 0 := by
            simpa using hlast
          obtain ⟨t, ht1, ht2, ht3⟩ := ih (by simp) (by simpa using Nat.le_of_not_lt hb) hlast'
          refine ⟨t + 1, by simpa using ht1, ?_, ?_⟩
          · simpa using ht2
          · simpa using ht3

/-- In a strictly increasing list an earlier entry is at most a later one. -/
theorem getD_mono (l : List Nat) (hs : l.Sorted (· < ·)) {i j : Nat} (hij : i ≤ j)
    (hj : j < l.length) : l.getD i 0 ≤ l.getD j 0 := by
  rcases Nat.eq_or_lt_of_le hij with rfl | hlt
  · exact le_rfl
  · have hi : i < l.length := by omega
    have := (List.pairwise_iff_getElem.1 hs) i j hi hj hlt
    rw [List.getD_eq_getElem?_getD, List.getD_eq_getElem?_getD,
      List.getElem?_eq_getElem hi, List.getElem?_eq_getElem hj]
    exact Nat.le_of_lt this

end Range

/-- C10: the tiles of a valid `Range` partition it: `low()` and `high()` return
values, and every element `e` with `low() <= e < high()` lies in exactly one
tile `t < tile_count()`, that is `get_tile(t).first <= e < get_tile(t).second`. -/
theorem C10_tiles_partition (r : Range) (hv : r.valid = true) :
    ∃ lo hi, r.low = .ok lo ∧ r.high = .ok hi ∧
      ∀ e, lo ≤ e → e < hi →
        ∃! t, t < r.tile_count ∧
          ∃ a b, r.get_tile t = .ok (a, b) ∧ a ≤ e ∧ e < b := by
  obtain ⟨hlen, hs⟩ := (Range.range_valid_iff r).1 hv
  have hsm := r.size_minus_one_eq hlen
  refine ⟨r.m_ranges.getD 0 0, r.m_ranges.getD (r.m_ranges.length - 1) 0, ?_, ?_, ?_⟩
  · exact r.at__eq (by omega)
  · unfold Range.high
    rw [hsm]
    exact r.at__eq (by omega)
  · intro e h0 hlast
    obtain ⟨t, ht1, ht2, ht3⟩ := Range.exists_enclosing r.m_ranges hlen e h0 hlast
    have htc : t < r.tile_count := by unfold Range.tile_count; omega
    refine ⟨t, ⟨htc, _, _, r.get_tile_eq hlen htc, ht2, ht3⟩, ?_⟩
    rintro t' ⟨htc', a, b, hg, ha, hb⟩
    rw [r.get_tile_eq hlen htc'] at hg
    injection hg with hg
    injection hg with hga hgb
    subst hga hgb
    have htl' : t' + 1 < r.m_ranges.length := by unfold Range.tile_count at htc'; omega
    rcases Nat.lt_trichotomy t' t with hlt | heq | hgt
    · have := Range.getD_mono r.m_ranges hs (by omega : t' + 1 ≤ t) (by omega)
      omega
    · exact heq
    · have := Range.getD_mono r.m_ranges hs (by omega : t + 1 ≤ t') (by omega)
      omega

theorem C10_tiles_partition_witness :
    ∃ lo hi, (⟨ex_bounds⟩ : Range).low = .ok lo ∧ (⟨ex_bounds⟩ : Range).high = .ok hi ∧
      ∀ e, lo ≤ e → e < hi →
        ∃! t, t < (⟨ex_bounds⟩ : Range).tile_count ∧
          ∃ a b, (⟨ex_bounds⟩ : Range).get_tile t = .ok (a, b) ∧ a ≤ e ∧ e < b :=
  C10_tiles_partition ⟨ex_bounds⟩ (by decide)

/-- C11, evaluated at failing inputs: on the range with boundaries
`{0, 3, 7, 12}`, tile 1 is `[3, 7)` and `tile_low(1)` is 3, but `tile_high(1)`
is 0, the boundary before the tile; `tile_high(2)` is 3; and `tile_high(0)`
reads `m_ranges[4294967295]`, outside the vector. -/
theorem C11_tile_high_reads_before :
    (⟨ex_bounds⟩ : Range).valid = true ∧
      (⟨ex_bounds⟩ : Range).get_tile 1 = .ok (3, 7) ∧
      (⟨ex_bounds⟩ : Range).tile_low 1 = .ok 3 ∧
      (⟨ex_bounds⟩ : Range).tile_high 1 = .ok 0 ∧
      (⟨ex_bounds⟩ : Range).tile_high 2 = .ok 3 ∧
      Range.index_minus_one 0 = 4294967295 ∧
      (⟨ex_bounds⟩ : Range).tile_high 0 = .error "undefined: read outside m_ranges" := by
  decide

theorem RangeIterator.iterate_pre_increment (it : RangeIterator) (k : Nat) :
    RangeIterator.pre_increment^[k] it = it := by
  induction k with
  | zero => rfl
  | succ k ih => rw [Function.iterate_succ_apply', ih]; rfl

/-- C12, evaluated: `advance` does nothing, so after any number `k` of
increments an iterator that started at `begin()` is still `begin()` and differs
from `end()`; on the range `{0, 3, 7, 12}` one increment still yields tile 0,
`(0, 3)`, not `get_tile(1) = (3, 7)`, and three increments do not reach `end()`. -/
theorem C12_increment_does_not_advance :
    (∀ (r : Range) (k : Nat),
      RangeIterator.pre_increment^[k] r.begin = r.begin ∧
        (RangeIterator.pre_increment^[k] r.begin).eq r.end_ = false) ∧
      (RangeIterator.pre_increment^[1] (⟨ex_bounds⟩ : Range).begin).deref = .ok (0, 3) ∧
      (⟨ex_bounds⟩ : Range).get_tile 1 = .ok (3, 7) ∧
      (⟨ex_bounds⟩ : Range).tile_count = 3 ∧
      (RangeIterator.pre_increment^[3] (⟨ex_bounds⟩ : Range).begin).ne
        (⟨ex_bounds⟩ : Range).end_ = true := by
  refine ⟨?_, by decide, by decide, by decide, by decide⟩
  intro r k
  rw [RangeIterator.iterate_pre_increment]
  exact ⟨rfl, rfl⟩

/-! ## Leaf nodes of the expression tree (`src/TiledArray/annotated_tensor.h`) -/

namespace TiledArray

namespace expressions

namespace detail

namespace AnnotatedTensorImpl

variable {S : Type}

theorem foldl_set (c : Nat → Bool) (find : Nat → Tensor S) (l : List Nat)
    (st : TensorState S) :
    l.foldl (fun st it => if c it then set it (find it) st else st) st
      = ⟨st.storage ++ (l.filter c).map (fun i => (i, find i)), st.taskq⟩ := by
  induction l generalizing st with
  | nil => simp
  | cons a l ih =>
    rw [List.foldl_cons, ih]
    by_cases h : c a = true
    · simp [h, set]
    · simp [h]

theorem foldl_taskq_add (c : Nat → Bool) (fn : TaskFn) (find : Nat → Tensor S) (l : List Nat)
    (st : TensorState S) :
    l.foldl (fun st it => if c it then taskq_add fn it (find it) st else st) st
      = ⟨st.storage, st.taskq ++ (l.filter c).map (fun i => ⟨fn, i, find i⟩)⟩ := by
  induction l generalizing st with
  | nil => simp
  | cons a l ih =>
    rw [List.foldl_cons, ih]
    by_cases h : c a = true
    · simp [h, taskq_add]
    · simp [h]

/-- What `eval_tiles` does, branch by branch: for each emitted ordinal, in the
order of the process map, a direct store or one task. -/
theorem eval_tiles_eq [IsOne S] (self : AnnotatedTensorImpl S) (st : TensorState S) :
    self.eval_tiles st =
      if IsOne.is_one self.scale then
        if self.same_value_type then
          ⟨st.storage ++ self.emitted.map (fun i => (i, self.array_.find i)), st.taskq⟩
        else
          ⟨st.storage, st.taskq ++ self.emitted.map
            (fun i => ⟨.convert_and_set_tile, i, self.array_.find i⟩)⟩
      else
        if self.same_value_type then
          ⟨st.storage, st.taskq ++ self.emitted.map
            (fun i => ⟨.scale_and_set_tile, i, self.array_.find i⟩)⟩
        else
          ⟨st.storage, st.taskq ++ self.emitted.map
            (fun i => ⟨.convert_scale_and_set_tile, i, self.array_.find i⟩)⟩ := by
  have hs := foldl_set (S := S)
  have ht := foldl_taskq_add (S := S)
  unfold eval_tiles emitted set_tile scale_set_tile
  by_cases h1 : IsOne.is_one self.scale = true <;>
  by_cases h2 : self.array_.is_dense = true <;>
  by_cases h3 : self.same_value_type = true <;>
  simp only [h1, h2, h3, if_true, Bool.true_or, Bool.false_or, Bool.false_eq_true, if_false]
  · simpa using hs (fun _ => true) self.array_.find self.pmap st
  · simpa using ht (fun _ => true) .convert_and_set_tile self.array_.find self.pmap st
  · exact hs _ self.array_.find self.pmap st
  · exact ht _ .convert_and_set_tile self.array_.find self.pmap st
  · simpa using ht (fun _ => true) .scale_and_set_tile self.array_.find self.pmap st
  · simpa using ht (fun _ => true) .convert_scale_and_set_tile self.array_.find self.pmap st
  · exact ht _ .scale_and_set_tile self.array_.find self.pmap st
  · exact ht _ .convert_scale_and_set_tile self.array_.find self.pmap st

/-- Every task stores the `value` it was given. -/
theorem run_task_eq [Mul S] (self : AnnotatedTensorImpl S) (t : Task S) (st : TensorState S) :
    self.run_task t st = ⟨st.storage ++ [(t.i, t.value)], st.taskq⟩ := by
  unfold run_task
  cases t.fn <;> rfl

theorem foldl_run_task [Mul S] (self : AnnotatedTensorImpl S) (ts : List (Task S))
    (st : TensorState S) :
    ts.foldl (fun acc t => self.run_task t acc) st
      = ⟨st.storage ++ ts.map (fun t => (t.i, t.value)), st.taskq⟩ := by
  induction ts generalizing st with
  | nil => simp
  | cons t ts ih => rw [List.foldl_cons, ih, run_task_eq]; simp

theorem run_tasks_eq [Mul S] (self : AnnotatedTensorImpl S) (st : TensorState S) :
    self.run_tasks st = ⟨st.storage ++ st.taskq.map (fun t => (t.i, t.value)), []⟩ := by
  unfold run_tasks
  rw [foldl_run_task]

/-- After `eval_tiles` and its tasks, started with nothing stored and an empty
queue, the node holds for each emitted ordinal `i` the tile `array_.find(i)`,
whatever the prefactor and the tile types. -/
theorem final_storage_eq [IsOne S] [Mul S] (self : AnnotatedTensorImpl S) :
    self.run_tasks (self.eval_tiles ⟨[], []⟩)
      = ⟨self.emitted.map (fun i => (i, self.array_.find i)), []⟩ := by
  rw [run_tasks_eq, eval_tiles_eq]
  by_cases h1 : IsOne.is_one self.scale = true <;>
  by_cases h3 : self.same_value_type = true <;>
  simp [h1, h3, Function.comp_def]

end AnnotatedTensorImpl

end detail

end expressions

end TiledArray

namespace TiledArray

namespace expressions

/-- C13: when `is_one(scale())` holds, `eval_tiles` spawns no scaling task
(with equal tile types it spawns no task at all), and once its tasks have run
the tile stored at each emitted ordinal `i` is the tile `array_.find(i)` of the
wrapped array. -/
theorem C13_identity_scale_bypass {S : Type} [IsOne S] [Mul S]
    (self : detail.AnnotatedTensorImpl S) (h : IsOne.is_one self.scale = true) :
    (∀ t ∈ (self.eval_tiles ⟨[], []⟩).taskq,
      t.fn ≠ .scale_and_set_tile ∧ t.fn ≠ .convert_scale_and_set_tile) ∧
    (self.same_value_type = true → (self.eval_tiles ⟨[], []⟩).taskq = []) ∧
    (self.run_tasks (self.eval_tiles ⟨[], []⟩)).storage
      = self.emitted.map (fun i => (i, self.array_.find i)) ∧
    ∀ p ∈ (self.run_tasks (self.eval_tiles ⟨[], []⟩)).storage, p.2 = self.array_.find p.1 := by
  have hfin := detail.AnnotatedTensorImpl.final_storage_eq self
  have hev := detail.AnnotatedTensorImpl.eval_tiles_eq self ⟨[], []⟩
  rw [if_pos h] at hev
  refine ⟨?_, ?_, ?_, ?_⟩
  · intro t ht
    rw [hev] at ht
    by_cases h3 : self.same_value_type = true
    · rw [if_pos h3] at ht
      simp at ht
    · rw [if_neg h3] at ht
      simp only [List.nil_append, List.mem_map] at ht
      obtain ⟨i, _, rfl⟩ := ht
      exact ⟨by simp, by simp⟩
  · intro h3
    rw [hev, if_pos h3]
  · rw [hfin]
  · intro p hp
    rw [hfin] at hp
    simp only [List.mem_map] at hp
    obtain ⟨i, _, rfl⟩ := hp
    rfl

theorem C13_identity_scale_bypass_witness :
    (∀ t ∈ (ex_leaf_one.eval_tiles ⟨[], []⟩).taskq,
      t.fn ≠ .scale_and_set_tile ∧ t.fn ≠ .convert_scale_and_set_tile) ∧
    (ex_leaf_one.same_value_type = true → (ex_leaf_one.eval_tiles ⟨[], []⟩).taskq = []) ∧
    (ex_leaf_one.run_tasks (ex_leaf_one.eval_tiles ⟨[], []⟩)).storage
      = ex_leaf_one.emitted.map (fun i => (i, ex_leaf_one.array_.find i)) ∧
    ∀ p ∈ (ex_leaf_one.run_tasks (ex_leaf_one.eval_tiles ⟨[], []⟩)).storage,
      p.2 = ex_leaf_one.array_.find p.1 :=
  C13_identity_scale_bypass ex_leaf_one (by decide)

/-- C14, evaluated at a failing input: with prefactor 2, tile 0 of the wrapped
array holding `1, 2, 3` and tile 2 holding `3, 4, 5`, the tasks build the scaled
tiles `2, 4, 6` (from `scale_and_set_tile` and from `convert_scale_and_set_tile`)
but the node ends up holding the unscaled tiles, for equal and for different
tile types. -/
theorem C14_scaled_tile_not_stored :
    IsOne.is_one ex_leaf_two.scale = false ∧
      (ex_leaf_two.eval_tiles ⟨[], []⟩).taskq
        = [⟨.scale_and_set_tile, 0, ⟨[3], [1, 2, 3]⟩⟩, ⟨.scale_and_set_tile, 2, ⟨[3], [3, 4, 5]⟩⟩] ∧
      ex_leaf_two.scaled_tile (ex_leaf_two.array_.find 0) = ⟨[3], [2, 4, 6]⟩ ∧
      (ex_leaf_two.run_tasks (ex_leaf_two.eval_tiles ⟨[], []⟩)).storage
        = [(0, ⟨[3], [1, 2, 3]⟩), (2, ⟨[3], [3, 4, 5]⟩)] ∧
      (ex_leaf_two_convert.eval_tiles ⟨[], []⟩).taskq
        = [⟨.convert_scale_and_set_tile, 0, ⟨[3], [1, 2, 3]⟩⟩,
           ⟨.convert_scale_and_set_tile, 2, ⟨[3], [3, 4, 5]⟩⟩] ∧
      ex_leaf_two_convert.converted_scaled_tile (ex_leaf_two_convert.array_.find 0)
        = ⟨[3], [2, 4, 6]⟩ ∧
      (ex_leaf_two_convert.run_tasks (ex_leaf_two_convert.eval_tiles ⟨[], []⟩)).storage
        = [(0, ⟨[3], [1, 2, 3]⟩), (2, ⟨[3], [3, 4, 5]⟩)] := by
  decide

/-- C15: `eval_tiles` emits a tile for ordinal `i` (stores it or spawns the
task that stores it) exactly when `i` is among the local ordinals of the process
map and the array is dense or `is_zero(i)` is false; the same ordinals, and no
other, hold a tile once the tasks have run, whatever the prefactor. -/
theorem C15_emitted_ordinals {S : Type} [IsOne S] [Mul S]
    (self : detail.AnnotatedTensorImpl S) (i : Nat) :
    (i ∈ (self.eval_tiles ⟨[], []⟩).storage.map Prod.fst
        ++ (self.eval_tiles ⟨[], []⟩).taskq.map (fun t => t.i) ↔
      i ∈ self.pmap ∧ (self.array_.is_dense = true ∨ self.array_.is_zero i = false)) ∧
    (i ∈ (self.run_tasks (self.eval_tiles ⟨[], []⟩)).storage.map Prod.fst ↔
      i ∈ self.pmap ∧ (self.array_.is_dense = true ∨ self.array_.is_zero i = false)) := by
  have hmem : i ∈ self.emitted ↔
      i ∈ self.pmap ∧ (self.array_.is_dense = true ∨ self.array_.is_zero i = false) := by
    unfold detail.AnnotatedTensorImpl.emitted
    rw [List.mem_filter]
    simp
  refine ⟨?_, ?_⟩
  · rw [detail.AnnotatedTensorImpl.eval_tiles_eq, ← hmem]
    by_cases h1 : IsOne.is_one self.scale = true <;>
    by_cases h3 : self.same_value_type = true <;>
    simp [h1, h3, Function.comp_def]
  · rw [detail.AnnotatedTensorImpl.final_storage_eq, ← hmem]
    simp [Function.comp_def]

/-- C16: `make_shape`, given a bitset whose size is `array_.size()`, returns as
its new content exactly `array_.get_shape()`; given a bitset of another size it
fails its assertion. -/
theorem C16_make_shape {S : Type} (self : detail.AnnotatedTensorImpl S) (shape : List Bool) :
    self.make_shape shape =
      if shape.length = self.array_.size then .ok self.array_.get_shape
      else .error "shape.size() == array_.size()" := by
  unfold detail.AnnotatedTensorImpl.make_shape TA_ASSERT
  by_cases h : shape.length = self.array_.size
  · simp only [h, beq_self_eq_true, if_true]
    rfl
  · have hb : (shape.length == self.array_.size) = false := by
      rw [beq_eq_false_iff_ne]; exact h
    simp only [hb, h, if_false]
    rfl

end expressions

end TiledArray

/-! ## The distributed array (`src/TiledArray/array.h`) -/

namespace TiledArray

/-- C17: `probe(i)` answers whether tile `i` is stored on its owner. When the
caller owns `i` the future is set on return to whether `i` is in the caller's
store and nothing is sent; otherwise the future is left unset and `send_probe`
goes to the owner, and whatever array object `o` the owner has when it handles
the message, it sends back `receive_probe` with whether `i` is in its store,
which on the requester sets the future named by `ref` to that value. -/
theorem C17_probe_answer {T : Type} (a : Array T) (i ref : Nat) :
    (a.probe i ref =
      if a.tiles_.owner i = a.rank then ⟨some (a.tiles_.cont i).isSome, []⟩
      else ⟨none, [(a.tiles_.owner i, .send_probe a.rank i ref)]⟩) ∧
    ∀ (o : Array T) (futures : Nat → Option Bool),
      o.send_probe a.rank i ref = [(a.rank, .receive_probe ref (o.tiles_.cont i).isSome)] ∧
      Array.receive_probe ref (o.tiles_.cont i).isSome futures ref
        = some (o.tiles_.cont i).isSome := by
  refine ⟨?_, ?_⟩
  · unfold Array.probe DistributedArray.find
    by_cases h : a.tiles_.owner i = a.rank
    · simp only [h, if_true]
    · simp only [h, if_false]
  · intro o futures
    refine ⟨rfl, ?_⟩
    unfold Array.receive_probe
    simp only [if_true]

/-- C18, evaluated at the failing input: on the owner of ordinal 5, which does
not store tile 5, `find(5, v)` dereferences the accessor that stayed empty,
whereas the same request routed from another process is answered by
`receive_no_atile` with the pair of 5 and an empty annotated tile. For the
stored tile 0 both routes give the pair of 0 and the annotated tile. -/
theorem C18_local_find_unchecked :
    ex_array_owner.tiles_.owner 5 = ex_array_owner.rank ∧
      ex_array_owner.tiles_.find 5 = none ∧
      ex_array_owner.find 5 ["m", "n"] 7
        = .error "undefined: dereference of an empty accessor" ∧
      ex_array_other.find 5 ["m", "n"] 7
        = .ok ⟨none, [(0, .send_atile 1 5 7 ["m", "n"])]⟩ ∧
      ex_array_owner.send_atile 1 5 7 ["m", "n"] = [(1, .receive_no_atile 7 5)] ∧
      Array.receive_no_atile (T := Int) 7 5 (fun _ => none) 7
        = some (5, AnnotatedTile.empty) ∧
      ex_array_owner.find 0 ["m", "n"] 7
        = .ok ⟨some (0, ⟨[2, 2], ["m", "n"], [1, 2, 3, 4]⟩), []⟩ ∧
      ex_array_owner.send_atile 1 0 7 ["m", "n"]
        = [(1, .receive_atile 7 0 ⟨[2, 2], [1, 2, 3, 4]⟩ ["m", "n"])] ∧
      Array.receive_atile 7 0 (⟨[2, 2], [1, 2, 3, 4]⟩ : Tile Int) ["m", "n"] (fun _ => none) 7
        = some (0, ⟨[2, 2], ["m", "n"], [1, 2, 3, 4]⟩) := by
  decide

/-- C19, evaluated: the virtual `erase(i)` calls itself, so within no bound on
the depth of its calls does it return, for any array and ordinal; the keyed
overload it was to delegate to removes, on the owner, exactly the tile at its
key. -/
theorem C19_erase_never_returns {T : Type} :
    (∀ (fuel : Nat) (a : Array T) (i : Nat), Array.erase fuel a i = none) ∧
    ∀ (a : Array T) (k j : Nat),
      (a.erase_key k).tiles_.cont j
        = if a.tiles_.owner k = a.rank ∧ j = k then none else a.tiles_.cont j := by
  refine ⟨?_, ?_⟩
  · intro fuel a i
    induction fuel with
    | zero => rfl
    | succ n ih => exact ih
  · intro a k j
    unfold Array.erase_key DistributedArray.erase
    by_cases h : a.tiles_.owner k = a.rank
    · by_cases hj : j = k
      · simp [h, hj]
      · simp [h, hj]
    · simp [h]

/-- C20: `insert(k, t)` passes the tile to the tile container exactly when the
size of `t` equals the size of tile `k` of the tiled range, and the owner of
`k` then holds `t` at `k`, every other key being as before; when the sizes
differ the call raises "Tile boundaries do not match array tile boundaries."
and the array, its tile container included, is as before. -/
theorem C20_insert_checks_size {T : Type} (a : Array T) (k : Nat) (t : Tile T) :
    (a.insert k t =
      if t.size = a.tile_size k then
        (.ok (), ⟨a.rank, a.tile_size, a.tiles_.insert a.rank k t⟩)
      else (.error "Tile boundaries do not match array tile boundaries.", a)) ∧
    ∀ j, (a.tiles_.insert a.rank k t).cont j
      = if a.tiles_.owner k = a.rank ∧ j = k then some t else a.tiles_.cont j := by
  refine ⟨?_, ?_⟩
  · unfold Array.insert TA_ASSERT
    by_cases h : t.size = a.tile_size k
    · simp only [h, beq_self_eq_true, if_true]
    · have hb : (t.size == a.tile_size k) = false := by
        rw [beq_eq_false_iff_ne]; exact h
      simp only [hb, h, if_false]
      rfl
  · intro j
    unfold DistributedArray.insert
    by_cases h : a.tiles_.owner k = a.rank
    · by_cases hj : j = k
      · simp [h, hj]
      · simp [h, hj]
    · simp [h]

end TiledArray

/-! ## Further properties of permutations and of the leaf's tasks -/

namespace TiledArray

/-- C25: each of `convert_and_set_tile`, `scale_and_set_tile` and
`convert_scale_and_set_tile` leaves the state that `set(i, value)` leaves: the
tile stored is the input `value`, not the transformed tile, and the state after
the call is the same for any two leaves, whatever their prefactors. -/
theorem C25_tasks_store_input {S : Type} [Mul S]
    (self other : expressions.detail.AnnotatedTensorImpl S) (i : Nat)
    (value : expressions.Tensor S) (st : expressions.detail.TensorState S) :
    self.convert_and_set_tile i value st
        = expressions.detail.AnnotatedTensorImpl.set i value st ∧
      self.scale_and_set_tile i value st
        = expressions.detail.AnnotatedTensorImpl.set i value st ∧
      self.convert_scale_and_set_tile i value st
        = expressions.detail.AnnotatedTensorImpl.set i value st ∧
      (self.scale_and_set_tile i value st).storage = st.storage ++ [(i, value)] ∧
      self.scale_and_set_tile i value st = other.scale_and_set_tile i value st ∧
      self.convert_scale_and_set_tile i value st
        = other.convert_scale_and_set_tile i value st :=
  ⟨rfl, rfl, rfl, rfl, rfl, rfl⟩

/-- C28: for valid `p` and `q`, `p ^ q` and `-p` are built without the
constructor's assertion failing and are valid; the offsets `detail::permute`
stores to, the entries of `p` in order, are each position of the result once,
so the result does not depend on what it held before. -/
theorem C28_valid_closed {α : Type} {DIM : Nat} (p q : Permutation DIM) (hp : p.Valid)
    (hq : q.Valid) (u0 u1 : BArray Nat DIM) (x u u' : BArray α DIM) :
    (∃ r, xor_perm p q u0 = .ok r ∧ r.Valid) ∧
      (∃ ip, p.neg u1 = .ok ip ∧ ip.Valid) ∧
      p.p_.elems.Perm (List.range DIM) ∧
      xor_array p x u = xor_array p x u' := by
  obtain ⟨h1, h2⟩ := xor_perm_eq p q hp hq u0
  obtain ⟨h3, h4, _⟩ := p.neg_eq hp u1
  refine ⟨⟨_, h1, Permutation.valid_of_isPermList h2⟩,
    ⟨_, h3, Permutation.valid_of_isPermList h4⟩, hp.isPermList.perm_range, ?_⟩
  apply BArray.ext_elems
  exact hp.isPermList.permute_indep x.elems u.elems u'.elems x.size_eq u.size_eq u'.size_eq

theorem C28_valid_closed_witness :
    (∃ r, xor_perm ex_cycle ex_swap ex_junk = .ok r ∧ r.Valid) ∧
      (∃ ip, ex_cycle.neg ex_junk = .ok ip ∧ ip.Valid) ∧
      ex_cycle.p_.elems.Perm (List.range 3) ∧
      xor_array ex_cycle ex_data ex_junk = xor_array ex_cycle ex_data ex_data :=
  C28_valid_closed ex_cycle ex_swap (by decide) (by decide) ex_junk ex_junk ex_data ex_junk
    ex_data

/-- C29: for valid `p` and `q`, `p ^ q` is the permutation `r` with
`r[p[i]] = q[i]`; `-p = p ^ unit()` satisfies `(-p)[p[i]] = i` and
`p[(-p)[i]] = i`; and `p ^ p` is the unit permutation. -/
theorem C29_product_entries {DIM : Nat} (p q : Permutation DIM) (hp : p.Valid) (hq : q.Valid)
    (u0 u1 u2 : BArray Nat DIM) :
    (∃ r, xor_perm p q u0 = .ok r ∧
      ∀ i : Fin DIM, r.p_.elems[p.get i]? = some (q.get i)) ∧
    (∃ ip, p.neg u1 = .ok ip ∧
      (∀ i : Fin DIM, ip.p_.elems[p.get i]? = some i.1) ∧
      ∀ i : Fin DIM, p.p_.elems[ip.get i]? = some i.1) ∧
    xor_perm p p u2 = Permutation.unit DIM := by
  have hP := hp.isPermList
  have hget : ∀ i : Fin DIM, p.p_.elems[i.1]? = some (p.get i) := fun i =>
    List.getElem?_eq_getElem (by rw [p.p_.size_eq]; exact i.2)
  obtain ⟨h1, _⟩ := xor_perm_eq p q hp hq u0
  obtain ⟨h3, h4, h5⟩ := p.neg_eq hp u1
  obtain ⟨h6, _⟩ := xor_perm_eq p p hp hp u2
  refine ⟨⟨_, h1, ?_⟩, ⟨_, h3, ?_, ?_⟩, ?_⟩
  · intro i
    have := hP.permute_get q.p_.elems u0.elems q.p_.size_eq u0.size_eq (hget i)
    show (detail.permute p.p_.elems q.p_.elems u0.elems)[p.get i]? = _
    rw [this]
    exact List.getElem?_eq_getElem (by rw [q.p_.size_eq]; exact i.2)
  · intro i
    exact h5 i.1 _ (hget i)
  · intro i
    obtain ⟨j, hj, hji⟩ := hP.exists_index i.2
    have hipj := h5 j i.1 hji
    have hgi : (xor_array p (Permutation.iota DIM) u1).elems[i.1]?
        = some (Permutation.get ⟨xor_array p (Permutation.iota DIM) u1⟩ i) :=
      List.getElem?_eq_getElem (by rw [BArray.size_eq]; exact i.2)
    rw [hgi] at hipj
    have : Permutation.get ⟨xor_array p (Permutation.iota DIM) u1⟩ i = j :=
      Option.some.inj hipj
    rw [this]
    exact hji
  · rw [h6, Permutation.unit_eq]
    congr 2
    apply BArray.ext_elems
    apply hP.ext_at _ _ (BArray.size_eq _) (Permutation.iota DIM).size_eq
    intro i k hk
    have := hP.permute_get p.p_.elems u2.elems p.p_.size_eq u2.size_eq hk
    show (detail.permute p.p_.elems p.p_.elems u2.elems)[k]? = (List.range DIM)[k]?
    rw [this, hk, List.getElem?_range (hP.getElem?_lt hk)]

theorem C29_product_entries_witness :
    (∃ r, xor_perm ex_cycle ex_swap ex_junk = .ok r ∧
      ∀ i : Fin 3, r.p_.elems[ex_cycle.get i]? = some (ex_swap.get i)) ∧
    (∃ ip, ex_cycle.neg ex_junk = .ok ip ∧
      (∀ i : Fin 3, ip.p_.elems[ex_cycle.get i]? = some i.1) ∧
      ∀ i : Fin 3, ex_cycle.p_.elems[ip.get i]? = some i.1) ∧
    xor_perm ex_cycle ex_cycle ex_junk = Permutation.unit 3 :=
  C29_product_entries ex_cycle ex_swap (by decide) (by decide) ex_junk ex_junk ex_junk

/-- C30: for valid `a` and `b`, after `a ^= b` the object `a` holds
`operator^(b, a_old)`, the permutation `r` with `r[b[i]] = a_old[i]`; this is in
general not `operator^(a_old, b)`, as for `a` the cycle `(1, 2, 0)` and `b` the
identity. -/
theorem C30_xor_assign {DIM : Nat} (a b : Permutation DIM) (ha : a.Valid) (hb : b.Valid)
    (u : BArray Nat DIM) :
    xor_perm b a u = .ok (a.xor_assign b u) ∧
      (∀ i : Fin DIM, (a.xor_assign b u).p_.elems[b.get i]? = some (a.get i)) ∧
      ex_cycle.Valid ∧ ex_id.Valid ∧
      xor_perm ex_cycle ex_id ex_junk ≠ .ok (ex_cycle.xor_assign ex_id ex_junk) := by
  obtain ⟨h1, _⟩ := xor_perm_eq b a hb ha u
  refine ⟨h1, ?_, by decide, by decide, by decide⟩
  intro i
  have hk : b.p_.elems[i.1]? = some (b.get i) :=
    List.getElem?_eq_getElem (by rw [b.p_.size_eq]; exact i.2)
  have := hb.isPermList.permute_get a.p_.elems u.elems a.p_.size_eq u.size_eq hk
  show (detail.permute b.p_.elems a.p_.elems u.elems)[b.get i]? = _
  rw [this]
  exact List.getElem?_eq_getElem (by rw [a.p_.size_eq]; exact i.2)

theorem C30_xor_assign_witness :
    xor_perm ex_swap ex_cycle ex_junk = .ok (ex_cycle.xor_assign ex_swap ex_junk) ∧
      (∀ i : Fin 3,
        (ex_cycle.xor_assign ex_swap ex_junk).p_.elems[ex_swap.get i]? = some (ex_cycle.get i)) ∧
      ex_cycle.Valid ∧ ex_id.Valid ∧
      xor_perm ex_cycle ex_id ex_junk ≠ .ok (ex_cycle.xor_assign ex_id ex_junk) :=
  C30_xor_assign ex_cycle ex_swap (by decide) (by decide) ex_junk

end TiledArray

/-! ## Tile sizes of a one-dimensional range -/

namespace Range

theorem sub_u32_eq {a b : Nat} (hab : a ≤ b) (hb : b < 2 ^ 32) : sub_u32 b a = b - a := by
  unfold sub_u32
  have h1 : b + 2 ^ 32 - a = (b - a) + 2 ^ 32 := by omega
  rw [h1, Nat.add_mod_right, Nat.mod_eq_of_lt (by omega)]

theorem getD_lt_of_bound (l : List Nat) (hb : ∀ x ∈ l, x < 2 ^ 32) {i : Nat}
    (hi : i < l.length) : l.getD i 0 < 2 ^ 32 := by
  rw [List.getD_eq_getElem _ _ hi]
  exact hb _ (List.getElem_mem _)

theorem getD_strict (l : List Nat) (hs : l.Sorted (· < ·)) {i : Nat} (hi : i + 1 < l.length) :
    l.getD i 0 < l.getD (i + 1) 0 := by
  have := (List.pairwise_iff_getElem.1 hs) i (i + 1) (by omega) hi (Nat.lt_succ_self i)
  rw [List.getD_eq_getElem _ _ hi, List.getD_eq_getElem _ _ (by omega : i < l.length)]
  exact this

theorem tile_size_eq (r : Range) (h : 2 ≤ r.m_ranges.length) (hs : r.m_ranges.Sorted (· < ·))
    (hb : ∀ x ∈ r.m_ranges, x < 2 ^ 32) {t : Nat} (ht : t < r.tile_count) :
    r.tile_size t = .ok (r.m_ranges.getD (t + 1) 0 - r.m_ranges.getD t 0) := by
  have hsm := r.size_minus_one_eq h
  have ht' : t < r.size_minus_one := ht
  have hlt : t + 1 < r.m_ranges.length := by omega
  unfold tile_size c_assert
  rw [r.at__eq hlt, r.at__eq (by omega : t < r.m_ranges.length)]
  simp only [ht', decide_True, if_true]
  rw [← sub_u32_eq (Nat.le_of_lt (getD_strict r.m_ranges hs hlt))
    (getD_lt_of_bound r.m_ranges hb hlt)]
  rfl

/-- The differences of neighbouring boundaries up to boundary `n` add up to the
distance from the first boundary to boundary `n`. -/
theorem sum_differences (l : List Nat) (hs : l.Sorted (· < ·)) (n : Nat) (hn : n < l.length) :
    ((List.range n).map (fun t => l.getD (t + 1) 0 - l.getD t 0)).sum
      = l.getD n 0 - l.getD 0 0 := by
  induction n with
  | zero => simp
  | succ n ih =>
    rw [List.sum_range_succ, ih (by omega)]
    have h1 := getD_mono l hs (Nat.zero_le n) (by omega)
    have h2 := getD_strict l hs hn
    omega

theorem mapM_ok {α β : Type} (f : α → Except String β) (g : α → β) (l : List α)
    (h : ∀ t ∈ l, f t = .ok (g t)) : l.mapM f = .ok (l.map g) := by
  induction l with
  | nil => rfl
  | cons a l ih =>
    rw [List.mapM_cons, h a (List.mem_cons_self _ _),
      ih (fun t ht => h t (List.mem_cons_of_mem _ ht))]
    rfl

end Range

/-- C26: for a valid `Range` whose boundaries are `unsigned int` values, every
tile `t < tile_count()` is non-empty, `tile_size(t)` being
`get_tile(t).second - get_tile(t).first >= 1`; `size()` is `high() - low()`;
the tile sizes add up to it; no subtraction wraps around; and
`size() >= tile_count() >= 1`. -/
theorem C26_tile_sizes (r : Range) (hv : r.valid = true)
    (hb : ∀ x ∈ r.m_ranges, x < 2 ^ 32) :
    (∀ t, t < r.tile_count →
      ∃ a b, r.get_tile t = .ok (a, b) ∧ a < b ∧ r.tile_size t = .ok (b - a)) ∧
    ∃ lo hi sizes, r.low = .ok lo ∧ r.high = .ok hi ∧ lo ≤ hi ∧ r.size = .ok (hi - lo) ∧
      (List.range r.tile_count).mapM r.tile_size = .ok sizes ∧
      sizes.sum = hi - lo ∧ 1 ≤ r.tile_count ∧ r.tile_count ≤ hi - lo := by
  obtain ⟨hlen, hs⟩ := (Range.range_valid_iff r).1 hv
  have hsm := r.size_minus_one_eq hlen
  have htc : r.tile_count = r.m_ranges.length - 1 := hsm
  have hlow : r.low = .ok (r.m_ranges.getD 0 0) := r.at__eq (by omega)
  have hhigh : r.high = .ok (r.m_ranges.getD (r.m_ranges.length - 1) 0) := by
    unfold Range.high
    rw [hsm]
    exact r.at__eq (by omega)
  have hle : r.m_ranges.getD 0 0 ≤ r.m_ranges.getD (r.m_ranges.length - 1) 0 :=
    Range.getD_mono r.m_ranges hs (Nat.zero_le _) (by omega)
  have hsum := Range.sum_differences r.m_ranges hs (r.m_ranges.length - 1) (by omega)
  refine ⟨?_, r.m_ranges.getD 0 0, r.m_ranges.getD (r.m_ranges.length - 1) 0,
    (List.range r.tile_count).map (fun t => r.m_ranges.getD (t + 1) 0 - r.m_ranges.getD t 0),
    hlow, hhigh, hle, ?_, ?_, ?_, ?_, ?_⟩
  · intro t ht
    refine ⟨_, _, r.get_tile_eq hlen ht, ?_, r.tile_size_eq hlen hs hb ht⟩
    exact Range.getD_strict r.m_ranges hs (by omega)
  · unfold Range.size
    rw [hhigh, hlow, ← Range.sub_u32_eq hle
      (Range.getD_lt_of_bound r.m_ranges hb (by omega))]
    rfl
  · exact Range.mapM_ok r.tile_size _ _
      (fun t ht => r.tile_size_eq hlen hs hb (List.mem_range.1 ht))
  · rw [htc]
    exact hsum
  · omega
  · rw [← hsum, htc]
    have hone : ∀ t ∈ List.range (r.m_ranges.length - 1),
        1 ≤ r.m_ranges.getD (t + 1) 0 - r.m_ranges.getD t 0 := by
      intro t ht
      have := Range.getD_strict r.m_ranges hs
        (by have := List.mem_range.1 ht; omega : t + 1 < r.m_ranges.length)
      omega
    have := List.card_nsmul_le_sum
      ((List.range (r.m_ranges.length - 1)).map
        (fun t => r.m_ranges.getD (t + 1) 0 - r.m_ranges.getD t 0)) 1
      (fun x hx => by
        obtain ⟨t, ht, rfl⟩ := List.mem_map.1 hx
        exact hone t ht)
    simpa using this

theorem C26_tile_sizes_witness :
    (∀ t, t < (⟨ex_bounds⟩ : Range).tile_count →
      ∃ a b, (⟨ex_bounds⟩ : Range).get_tile t = .ok (a, b) ∧ a < b ∧
        (⟨ex_bounds⟩ : Range).tile_size t = .ok (b - a)) ∧
    ∃ lo hi sizes, (⟨ex_bounds⟩ : Range).low = .ok lo ∧ (⟨ex_bounds⟩ : Range).high = .ok hi ∧
      lo ≤ hi ∧ (⟨ex_bounds⟩ : Range).size = .ok (hi - lo) ∧
      (List.range (⟨ex_bounds⟩ : Range).tile_count).mapM (⟨ex_bounds⟩ : Range).tile_size
        = .ok sizes ∧
      sizes.sum = hi - lo ∧ 1 ≤ (⟨ex_bounds⟩ : Range).tile_count ∧
      (⟨ex_bounds⟩ : Range).tile_count ≤ hi - lo :=
  C26_tile_sizes ⟨ex_bounds⟩ (by decide) (by decide)

/-! ## The blocking of the DGEMM example (`src/examples/ta_dgemm/dgemm.cpp`) -/

/-- C23: for the matrix size 8192 of the source and the block size 512 that
`main` passes, the blocking vector holds the 17 boundaries 0, 512, ..., 8192,
each dimension has 16 tiles, and the number of blocks of the tiled range is
256. -/
theorem C23_dgemm_tile_count :
    ta_dgemm.blocking MATRIX_SIZE 512
        = [0, 512, 1024, 1536, 2048, 2560, 3072, 3584, 4096, 4608, 5120, 5632, 6144, 6656,
          7168, 7680, 8192] ∧
      TiledRange1.tile_count (ta_dgemm.blocking MATRIX_SIZE 512) = 16 ∧
      ta_dgemm.number_of_blocks MATRIX_SIZE 512 = 256 := by
  decide

/-- While no boundary reaches `2^32`, the blocking vector holds the multiples
`0, block_size, ..., n * block_size`. -/
theorem ta_dgemm.blocking_loop_eq (block_size n : Nat) (h : n * block_size < 2 ^ 32) :
    (List.range n).foldl
        (fun blocking j => blocking ++ [(blocking.getD j 0 + block_size) % 2 ^ 32]) [0]
      = (List.range (n + 1)).map (fun i => i * block_size) := by
  induction n with
  | zero =>
    have h1 : List.range (0 + 1) = [0] := rfl
    rw [h1]
    simp
  | succ n ih =>
    have hn : n * block_size < 2 ^ 32 := by
      have : n * block_size ≤ (n + 1) * block_size := Nat.mul_le_mul_right _ (Nat.le_succ n)
      omega
    rw [List.range_succ, List.foldl_append, ih hn, List.range_succ (n + 1), List.map_append]
    simp only [List.foldl_cons, List.foldl_nil, List.map_cons, List.map_nil]
    congr 2
    have hget : ((List.range (n + 1)).map (fun i => i * block_size)).getD n 0
        = n * block_size := by
      rw [List.getD_eq_getElem?_getD, List.getElem?_map,
        List.getElem?_range (Nat.lt_succ_self n)]
      rfl
    rw [hget, Nat.mod_eq_of_lt (by rw [Nat.succ_mul] at h; exact h), Nat.succ_mul]

theorem ta_dgemm.blocking_eq (size block_size : Nat)
    (h : size / block_size * block_size < 2 ^ 32) :
    ta_dgemm.blocking size block_size
      = (List.range (size / block_size + 1)).map (fun i => i * block_size) := by
  unfold ta_dgemm.blocking
  exact ta_dgemm.blocking_loop_eq block_size (size / block_size) h

/-- C27: the matrix size of `ta_dgemm` is the macro `MATRIX_SIZE`, and for every
block size of at least one the blocking vector has `size / block_size + 1`
entries, entry `i` being `i * block_size`; it is strictly increasing; its last
boundary is `size` exactly when the block size divides `size`; and it
describes at least one tile exactly when `block_size <= size`. The same holds
for every other value of the macro whose boundaries `i * block_size` are
`unsigned int` values. -/
theorem C27_blocking_vector (block_size : Nat) (hb : 1 ≤ block_size) :
    ((ta_dgemm.blocking MATRIX_SIZE block_size).length = MATRIX_SIZE / block_size + 1 ∧
      (∀ i, i ≤ MATRIX_SIZE / block_size →
        (ta_dgemm.blocking MATRIX_SIZE block_size)[i]? = some (i * block_size)) ∧
      (ta_dgemm.blocking MATRIX_SIZE block_size).Sorted (· < ·) ∧
      ((ta_dgemm.blocking MATRIX_SIZE block_size).getLast? = some MATRIX_SIZE ↔
        block_size ∣ MATRIX_SIZE) ∧
      (1 ≤ TiledRange1.tile_count (ta_dgemm.blocking MATRIX_SIZE block_size) ↔
        block_size ≤ MATRIX_SIZE)) ∧
    ∀ size : Nat, size / block_size * block_size < 2 ^ 32 →
      (ta_dgemm.blocking size block_size).length = size / block_size + 1 ∧
      (∀ i, i ≤ size / block_size →
        (ta_dgemm.blocking size block_size)[i]? = some (i * block_size)) ∧
      (ta_dgemm.blocking size block_size).Sorted (· < ·) ∧
      ((ta_dgemm.blocking size block_size).getLast? = some size ↔ block_size ∣ size) ∧
      (1 ≤ TiledRange1.tile_count (ta_dgemm.blocking size block_size) ↔
        block_size ≤ size) := by
  have key : ∀ size : Nat, size / block_size * block_size < 2 ^ 32 →
      (ta_dgemm.blocking size block_size).length = size / block_size + 1 ∧
      (∀ i, i ≤ size / block_size →
        (ta_dgemm.blocking size block_size)[i]? = some (i * block_size)) ∧
      (ta_dgemm.blocking size block_size).Sorted (· < ·) ∧
      ((ta_dgemm.blocking size block_size).getLast? = some size ↔ block_size ∣ size) ∧
      (1 ≤ TiledRange1.tile_count (ta_dgemm.blocking size block_size) ↔
        block_size ≤ size) := by
    intro size hfit
    rw [ta_dgemm.blocking_eq size block_size hfit]
    refine ⟨by simp, ?_, ?_, ?_, ?_⟩
    · intro i hi
      rw [List.getElem?_map, List.getElem?_range (Nat.lt_succ_of_le hi)]
      rfl
    · apply List.Pairwise.map _ _ (List.pairwise_lt_range _)
      intro a b hab
      exact Nat.mul_lt_mul_of_pos_right hab hb
    · rw [List.getLast?_map, List.getLast?_range, if_neg (Nat.succ_ne_zero _),
        Option.map_some', Nat.add_sub_cancel, Nat.dvd_iff_div_mul_eq]
      constructor
      · intro h; exact Option.some.inj h
      · intro h; rw [h]
    · unfold TiledRange1.tile_count
      rw [List.length_map, List.length_range, Nat.add_sub_cancel]
      exact Nat.one_le_div_iff hb
  exact ⟨key MATRIX_SIZE (Nat.lt_of_le_of_lt (Nat.div_mul_le_self MATRIX_SIZE block_size)
    (by decide)), key⟩

theorem C27_blocking_vector_witness :
    (1 ≤ 3000) ∧
    ((ta_dgemm.blocking MATRIX_SIZE 3000).length = MATRIX_SIZE / 3000 + 1 ∧
      (∀ i, i ≤ MATRIX_SIZE / 3000 →
        (ta_dgemm.blocking MATRIX_SIZE 3000)[i]? = some (i * 3000)) ∧
      (ta_dgemm.blocking MATRIX_SIZE 3000).Sorted (· < ·) ∧
      ((ta_dgemm.blocking MATRIX_SIZE 3000).getLast? = some MATRIX_SIZE ↔
        3000 ∣ MATRIX_SIZE) ∧
      (1 ≤ TiledRange1.tile_count (ta_dgemm.blocking MATRIX_SIZE 3000) ↔
        3000 ≤ MATRIX_SIZE)) ∧
    ∀ size : Nat, size / 3000 * 3000 < 2 ^ 32 →
      (ta_dgemm.blocking size 3000).length = size / 3000 + 1 ∧
      (∀ i, i ≤ size / 3000 →
        (ta_dgemm.blocking size 3000)[i]? = some (i * 3000)) ∧
      (ta_dgemm.blocking size 3000).Sorted (· < ·) ∧
      ((ta_dgemm.blocking size 3000).getLast? = some size ↔ 3000 ∣ size) ∧
      (1 ≤ TiledRange1.tile_count (ta_dgemm.blocking size 3000) ↔ 3000 ≤ size) :=
  ⟨by decide, C27_blocking_vector 3000 (by decide)⟩

/-! ## Sparse shapes: contraction and permutation -/

namespace TiledArray

theorem ShapeAlgebra.sum_bit (l : List Bool) : bit_algebra.sum l = l.any id := by
  unfold ShapeAlgebra.sum bit_algebra
  simp only
  have h : ∀ (acc : Bool), l.foldl or acc = (acc || l.any id) := by
    induction l with
    | nil => intro acc; simp
    | cons a l ih => intro acc; rw [List.foldl_cons, ih]; simp [Bool.or_assoc]
  rw [h]
  simp

theorem ShapeAlgebra.sum_numeric (Q : Type) [Semiring Q] (l : List Q) :
    (numeric_algebra Q).sum l = l.sum := by
  unfold ShapeAlgebra.sum numeric_algebra
  simp only
  rw [List.sum_eq_foldl]

/-- The ordinal of the index `(i, j)` in a row-major layout with extents
`(m, n)` is `i * n + j`. -/
theorem ordinal_list_pair (m n i j : Nat) :
    ordinal_list .decreasing_dimension_order [m, n] [i, j] = i * n + j := by
  simp [ordinal_list, calc_weight_list, running_products]

theorem SparseShape.gemm_size {R : Type} {DL DR : Nat} (alg : ShapeAlgebra R)
    (left : SparseShape R DL) (right : SparseShape R DR) (factor : R) (helper : GemmHelper) :
    (left.gemm alg right factor helper).size.elems
      = [left.gemm_m helper, right.gemm_n helper] := rfl

theorem SparseShape.gemm_get2 {R : Type} {DL DR : Nat} (alg : ShapeAlgebra R)
    (left : SparseShape R DL) (right : SparseShape R DR) (factor : R) (helper : GemmHelper)
    (i j : Nat) (hi : i < left.gemm_m helper) (hj : j < right.gemm_n helper) :
    (left.gemm alg right factor helper).get2 i j
      = some (alg.mul factor (alg.sum ((List.range (left.gemm_k helper)).map
          (fun kk => alg.mul (left.gemm_left alg helper i kk)
            (right.gemm_right alg helper (left.gemm_k helper) kk j))))) := by
  have hn : 0 < right.gemm_n helper := by omega
  have hlt : i * right.gemm_n helper + j < left.gemm_m helper * right.gemm_n helper := by
    calc i * right.gemm_n helper + j < i * right.gemm_n helper + right.gemm_n helper := by omega
      _ = (i + 1) * right.gemm_n helper := by rw [Nat.succ_mul]
      _ ≤ left.gemm_m helper * right.gemm_n helper := Nat.mul_le_mul_right _ hi
  unfold SparseShape.get2 ordinal
  rw [SparseShape.gemm_size]
  show (left.gemm alg right factor helper).data[
    ordinal_list .decreasing_dimension_order [left.gemm_m helper, right.gemm_n helper] [i, j]]? = _
  rw [ordinal_list_pair]
  unfold SparseShape.gemm
  simp only
  rw [List.getElem?_map, List.getElem?_range hlt, Option.map_some']
  have h1 : (i * right.gemm_n helper + j) / right.gemm_n helper = i := by
    rw [Nat.mul_comm, Nat.mul_add_div hn, Nat.div_eq_of_lt hj, Nat.add_zero]
  have h2 : (i * right.gemm_n helper + j) % right.gemm_n helper = j := by
    rw [Nat.mul_comm, Nat.mul_add_mod, Nat.mod_eq_of_lt hj]
  rw [h1, h2]

/-- C21: with no transposition and the factor one, the contraction of a left
shape, viewed as an `m` by `k` matrix, with a right shape, viewed as a `k` by
`n` matrix, is a shape with extents `(m, n)` whose value at every index
`(i, j)` is the sum over `kk` of `left[i, kk] * right[kk, j]`, the sum and the
product being those of the values' algebra: for bits the OR of the ANDs, for
numbers the sum of the products. -/
theorem C21_contraction_is_product {R : Type} {DL DR : Nat} (alg : ShapeAlgebra R)
    (left : SparseShape R DL) (right : SparseShape R DR) (helper : GemmHelper)
    (hl : helper.left_op = .NoTrans) (hr : helper.right_op = .NoTrans) (i j : Nat)
    (hi : i < left.size.elems.headD 0) (hj : j < right.size.elems.getLastD 0) :
    (left.gemm alg right alg.one helper).size.elems
        = [left.size.elems.headD 0, right.size.elems.getLastD 0] ∧
      (left.gemm alg right alg.one helper).get2 i j
        = some (alg.sum ((List.range (left.data.length / left.size.elems.headD 0)).map
            (fun kk => alg.mul
              (left.data.getD (i * (left.data.length / left.size.elems.headD 0) + kk) alg.zero)
              (right.data.getD (kk * right.size.elems.getLastD 0 + j) alg.zero)))) ∧
      (∀ l : List Bool, bit_algebra.sum l = l.any id) ∧
      ∀ l : List Int, (numeric_algebra Int).sum l = l.sum := by
  have hm : left.gemm_m helper = left.size.elems.headD 0 := by
    unfold SparseShape.gemm_m; rw [hl]
  have hn : right.gemm_n helper = right.size.elems.getLastD 0 := by
    unfold SparseShape.gemm_n; rw [hr]
  have hk : left.gemm_k helper = left.data.length / left.size.elems.headD 0 := by
    unfold SparseShape.gemm_k; rw [hm]
  refine ⟨?_, ?_, ShapeAlgebra.sum_bit, ShapeAlgebra.sum_numeric Int⟩
  · rw [SparseShape.gemm_size, hm, hn]
  · rw [SparseShape.gemm_get2 alg left right alg.one helper i j (hm ▸ hi) (hn ▸ hj),
      alg.one_mul, hk]
    congr 2
    apply List.map_congr_left
    intro kk _
    unfold SparseShape.gemm_left SparseShape.gemm_right
    rw [hl, hr, hn, hk]

theorem C21_contraction_is_product_witness :
    (ex_shape_left.gemm bit_algebra ex_shape_right bit_algebra.one ex_helper).size.elems
        = [ex_shape_left.size.elems.headD 0, ex_shape_right.size.elems.getLastD 0] ∧
      (ex_shape_left.gemm bit_algebra ex_shape_right bit_algebra.one ex_helper).get2 1 0
        = some (bit_algebra.sum
            ((List.range (ex_shape_left.data.length / ex_shape_left.size.elems.headD 0)).map
              (fun kk => bit_algebra.mul
                (ex_shape_left.data.getD
                  (1 * (ex_shape_left.data.length / ex_shape_left.size.elems.headD 0) + kk)
                  bit_algebra.zero)
                (ex_shape_right.data.getD (kk * ex_shape_right.size.elems.getLastD 0 + 0)
                  bit_algebra.zero)))) ∧
      (∀ l : List Bool, bit_algebra.sum l = l.any id) ∧
      ∀ l : List Int, (numeric_algebra Int).sum l = l.sum :=
  C21_contraction_is_product bit_algebra ex_shape_left ex_shape_right ex_helper rfl rfl 1 0
    (by decide) (by decide)

end TiledArray

namespace TiledArray

/-- The run of `Permute` ends without error, and its output holds at the
ordinal of a permuted index, in the permuted layout, the input element of the
index. -/
theorem detail.Permute_reindex {T : Type} {DIM : Nat} (order : DimensionOrderType)
    (range_ : NRange DIM) (p : Permutation DIM) (hp : p.Valid) (out inp : List T)
    (hout : out.length = range_.volume) (hin : inp.length = range_.volume)
    (u_size u_step u_ip : BArray Nat DIM) :
    ∃ st, detail.Permute order range_ p out inp u_size u_step u_ip = .ok st ∧
      ∀ idx u1 u2 : List Nat, List.Forall₂ (· < ·) idx range_.size.elems →
        u1.length = DIM → u2.length = DIM →
        st.out[ordinal_list order (detail.permute p.p_.elems range_.size.elems u1)
            (detail.permute p.p_.elems idx u2)]?
          = inp[ordinal_list order range_.size.elems idx]? := by
  have hP := hp.isPermList
  obtain ⟨os, hrun, hperm, hidx⟩ := detail.permute_nest order DIM p.p_.elems range_.size.elems
    inp out u_size.elems u_step.elems u_ip.elems hP range_.size.size_eq u_size.size_eq
    u_step.size_eq u_ip.size_eq hin hout
  refine ⟨_, (detail.Permute_eq order range_ p hp out inp hout hin u_size u_step u_ip).trans hrun,
    ?_⟩
  intro idx u1 u2 hbox hu1 hu2
  obtain ⟨_, hos⟩ := hidx idx u2 hbox hu2
  have hind := hP.permute_indep range_.size.elems u1 u_size.elems range_.size.size_eq
    hu1 u_size.size_eq
  show (detail.permute os inp out)[_]? = _
  rw [hind]
  exact hperm.permute_get inp out hin hout hos

/-- The permutation `(1, 0)` swaps the two elements of an array, whatever the
array it writes to held. -/
theorem detail.permute_swap {α : Type} (a b : α) (u : List α) (hu : u.length = 2) :
    detail.permute [1, 0] [a, b] u = [b, a] := by
  match u, hu with
  | [c, d], _ => rfl

theorem ex_transpose_valid : ex_transpose.Valid := by decide

/-- C22: the contraction `left.gemm(right, 1, helper)` permuted by
`Permutation(1, 0)` is made without error, has the extents `(n, m)` of the
contraction swapped, and has at every tile index `(i, j)` the value that the
unpermuted contraction has at `(j, i)`. -/
theorem C22_permuted_contraction {R : Type} {DL DR : Nat} (alg : ShapeAlgebra R)
    (left : SparseShape R DL) (right : SparseShape R DR) (helper : GemmHelper)
    (fresh : List R) (hfresh : fresh.length = left.gemm_m helper * right.gemm_n helper)
    (u_size u_step u_ip u_res : BArray Nat 2) :
    ∃ res, (left.gemm alg right alg.one helper).perm ex_transpose fresh u_size u_step u_ip u_res
        = .ok res ∧
      res.size.elems = [right.gemm_n helper, left.gemm_m helper] ∧
      ∀ i j : Nat, i < right.gemm_n helper → j < left.gemm_m helper →
        res.get2 i j = (left.gemm alg right alg.one helper).get2 j i ∧
        (res.get2 i j).isSome = true := by
  have hvol : (⟨(left.gemm alg right alg.one helper).size⟩ : NRange 2).volume
      = left.gemm_m helper * right.gemm_n helper := by
    show [left.gemm_m helper, right.gemm_n helper].prod = _
    simp
  have hdata : (left.gemm alg right alg.one helper).data.length
      = left.gemm_m helper * right.gemm_n helper := by
    unfold SparseShape.gemm
    simp
  obtain ⟨st, hrun, hre⟩ := detail.Permute_reindex .decreasing_dimension_order
    ⟨(left.gemm alg right alg.one helper).size⟩ ex_transpose ex_transpose_valid fresh
    (left.gemm alg right alg.one helper).data (hfresh.trans hvol.symm) (hdata.trans hvol.symm)
    u_size u_step u_ip
  have hsize : (xor_array ex_transpose (left.gemm alg right alg.one helper).size u_res).elems
      = [right.gemm_n helper, left.gemm_m helper] :=
    detail.permute_swap _ _ u_res.elems u_res.size_eq
  refine ⟨⟨xor_array ex_transpose (left.gemm alg right alg.one helper).size u_res, st.out⟩, ?_,
    hsize, ?_⟩
  · unfold SparseShape.perm
    rw [hrun]
    rfl
  · intro i j hi hj
    have hbox : List.Forall₂ (· < ·) [j, i]
        (⟨(left.gemm alg right alg.one helper).size⟩ : NRange 2).size.elems := by
      show List.Forall₂ (· < ·) [j, i] [left.gemm_m helper, right.gemm_n helper]
      exact List.Forall₂.cons hj (List.Forall₂.cons hi List.Forall₂.nil)
    have h := hre [j, i] u_res.elems u_res.elems hbox u_res.size_eq u_res.size_eq
    have h1 : detail.permute ex_transpose.p_.elems
        (⟨(left.gemm alg right alg.one helper).size⟩ : NRange 2).size.elems u_res.elems
        = [right.gemm_n helper, left.gemm_m helper] :=
      detail.permute_swap _ _ u_res.elems u_res.size_eq
    have h2 : detail.permute ex_transpose.p_.elems [j, i] u_res.elems = [i, j] :=
      detail.permute_swap _ _ u_res.elems u_res.size_eq
    rw [h1, h2] at h
    have hget : (⟨xor_array ex_transpose (left.gemm alg right alg.one helper).size u_res,
        st.out⟩ : SparseShape R 2).get2 i j = (left.gemm alg right alg.one helper).get2 j i := by
      unfold SparseShape.get2 ordinal
      simp only [hsize]
      exact h
    refine ⟨hget, ?_⟩
    rw [hget, SparseShape.gemm_get2 alg left right alg.one helper j i hj hi]
    rfl

theorem C22_permuted_contraction_witness :
    (4 : Nat) = ex_shape_left.gemm_m ex_helper * ex_shape_right.gemm_n ex_helper ∧
    ∃ res, (ex_shape_left.gemm bit_algebra ex_shape_right bit_algebra.one ex_helper).perm
        ex_transpose [false, false, false, false] ex_extents.size ex_extents.size
        ex_extents.size ex_extents.size = .ok res ∧
      res.size.elems = [ex_shape_right.gemm_n ex_helper, ex_shape_left.gemm_m ex_helper] ∧
      ∀ i j : Nat, i < ex_shape_right.gemm_n ex_helper → j < ex_shape_left.gemm_m ex_helper →
        res.get2 i j
          = (ex_shape_left.gemm bit_algebra ex_shape_right bit_algebra.one ex_helper).get2 j i ∧
        (res.get2 i j).isSome = true :=
  ⟨by decide, C22_permuted_contraction bit_algebra ex_shape_left ex_shape_right ex_helper
    [false, false, false, false] (by decide) ex_extents.size ex_extents.size ex_extents.size
    ex_extents.size⟩

end TiledArray
